import Mathlib

/-!
Verification of the fedrev-website static-site build script.

The build script (a single Node.js program) bundles CSS by recursively
inlining `@import` statements, minifies CSS and HTML with a fixed sequence
of global regex replacements, injects JSON content into HTML partials via
`String.replace`, rewrites `/public/` URLs, hashes the CSS bundle with a
truncated MD5 digest, and validates internal links in the produced pages.

This file gives a shallow embedding of those operations over `List Char`
(JavaScript strings) and proves or refutes the specification's claims
about them.  Each embedded function is translated from the corresponding
JavaScript source function, including the exact semantics of the regular
expressions and of `String.replace` (left-to-right, non-overlapping
matching, `$`-substitution in string replacements).
-/

set_option maxRecDepth 10000

namespace Build

/-! ### Character classes -/

/-- JavaScript `\s` (whitespace class): ASCII whitespace plus the Unicode
space separators matched by JS regexes.  Also the character set removed by
`String.prototype.trim`. -/
def isWS (c : Char) : Bool :=
  c = ' ' || c = '\t' || c = '\n' || c = '\r' || c = '\x0b' || c = '\x0c' ||
  c = '\u00a0' || c = '\u1680' || ('\u2000' ≤ c && c ≤ '\u200a') ||
  c = '\u2028' || c = '\u2029' || c = '\u202f' || c = '\u205f' ||
  c = '\u3000' || c = '\ufeff'

/-- JavaScript line terminators (relevant for multiline `^`/`$` and for
the `.` class, which excludes them). -/
def lineTerm (c : Char) : Bool :=
  c = '\n' || c = '\r' || c = '\u2028' || c = '\u2029'

theorem lineTerm_isWS {c : Char} (h : lineTerm c = true) : isWS c = true := by
  simp only [lineTerm, Bool.or_eq_true, decide_eq_true_eq] at h
  have h' : c = '\n' ∨ c = '\r' ∨ c = '\u2028' ∨ c = '\u2029' := by tauto
  rcases h' with h' | h' | h' | h' <;> subst h' <;> decide

/-- Quote characters accepted by the CSS `@import` and href/src regexes. -/
def isQuote (c : Char) : Bool := c = '"' || c = '\''

/-- The symbol class `[{}:;,]` of the CSS minifier's third replacement. -/
def isSym (c : Char) : Bool :=
  c = '\x7b' || c = '\x7d' || c = ':' || c = ';' || c = ','

theorem isSym_not_isWS {c : Char} (h : isSym c = true) : isWS c = false := by
  simp only [isSym, Bool.or_eq_true, decide_eq_true_eq] at h
  have h' : c = '\x7b' ∨ c = '\x7d' ∨ c = ':' ∨ c = ';' ∨ c = ',' := by tauto
  rcases h' with h' | h' | h' | h' | h' <;> subst h' <;> decide

/-! ### Generic list-of-characters utilities -/

/-- Split a list around the first occurrence of the (nonempty) pattern
`pat`: returns `(before, after)` where the input is
`before ++ pat ++ after`, or `none` when `pat` does not occur.  This is the
search step shared by every literal string/regex replacement below. -/
def splitFirst (pat : List Char) : List Char → Option (List Char × List Char)
  | [] => if pat.isPrefixOf ([] : List Char) then some ([], []) else none
  | c :: rest =>
    if pat.isPrefixOf (c :: rest) then some ([], (c :: rest).drop pat.length)
    else (splitFirst pat rest).map (fun pr => (c :: pr.1, pr.2))

/-- Whether `pat` occurs as a contiguous substring. -/
def hasSub (pat l : List Char) : Bool := (splitFirst pat l).isSome

theorem hasSub_cons (pat : List Char) (c : Char) (rest : List Char) :
    hasSub pat (c :: rest) =
      (pat.isPrefixOf (c :: rest) || hasSub pat rest) := by
  simp only [hasSub, splitFirst]
  by_cases h : pat.isPrefixOf (c :: rest)
  · simp [h]
  · simp [h, Option.isSome_map]

theorem isPrefixOf_length_le {l₁ l₂ : List Char}
    (h : l₁.isPrefixOf l₂ = true) : l₁.length ≤ l₂.length := by
  induction l₁ generalizing l₂ with
  | nil => simp
  | cons a as ih =>
    cases l₂ with
    | nil => simp [List.isPrefixOf] at h
    | cons b bs =>
      simp only [List.isPrefixOf, Bool.and_eq_true] at h
      simpa [Nat.succ_le_succ_iff] using ih h.2

theorem splitFirst_length {pat l before after : List Char}
    (hpat : pat ≠ []) (h : splitFirst pat l = some (before, after)) :
    after.length + pat.length ≤ l.length := by
  induction l generalizing before with
  | nil =>
    have hp : pat.isPrefixOf ([] : List Char) = false := by
      cases pat with
      | nil => exact absurd rfl hpat
      | cons a as => rfl
    simp [splitFirst, hp] at h
  | cons c rest ih =>
    cases hp : pat.isPrefixOf (c :: rest) with
    | true =>
      simp only [splitFirst, hp, if_true, Option.some.injEq, Prod.mk.injEq] at h
      obtain ⟨hb, ha⟩ := h
      subst ha
      have hle : pat.length ≤ (c :: rest).length := isPrefixOf_length_le hp
      simp only [List.length_drop]
      omega
    | false =>
      simp only [splitFirst, hp, Bool.false_eq_true, if_false,
        Option.map_eq_some'] at h
      obtain ⟨⟨b', a'⟩, hsp, heq⟩ := h
      simp only [Prod.mk.injEq] at heq
      obtain ⟨hb, ha⟩ := heq
      have := @ih b' (ha ▸ hsp)
      simp only [List.length_cons]
      omega

theorem splitFirst_pos {pat l before after : List Char}
    (hpat : pat ≠ []) (h : splitFirst pat l = some (before, after)) :
    after.length < l.length := by
  have := splitFirst_length hpat h
  have : 1 ≤ pat.length := by
    cases pat with
    | nil => exact absurd rfl hpat
    | cons a as => simp
  omega

/-- An adjacency ("no bad neighbouring pair") predicate: `adjOK R l` holds
when every pair of consecutive characters satisfies `R`. -/
def adjOK (R : Char → Char → Bool) : List Char → Bool
  | [] => true
  | [_] => true
  | a :: b :: t => R a b && adjOK R (b :: t)

theorem adjOK_tail {R : Char → Char → Bool} {c : Char} {l : List Char}
    (h : adjOK R (c :: l) = true) : adjOK R l = true := by
  cases l with
  | nil => rfl
  | cons b t =>
    simp only [adjOK, Bool.and_eq_true] at h
    exact h.2

theorem adjOK_pair {R : Char → Char → Bool} {a b : Char} {t : List Char}
    (h : adjOK R (a :: b :: t) = true) : R a b = true := by
  simp only [adjOK, Bool.and_eq_true] at h
  exact h.1

theorem adjOK_cons {R : Char → Char → Bool} {a b : Char} {t : List Char}
    (hR : R a b = true) (h : adjOK R (b :: t) = true) :
    adjOK R (a :: b :: t) = true := by
  simp [adjOK, hR, h]

theorem adjOK_dropWhile {R : Char → Char → Bool} (p : Char → Bool)
    {l : List Char} (h : adjOK R l = true) :
    adjOK R (l.dropWhile p) = true := by
  induction l with
  | nil => rfl
  | cons c t ih =>
    by_cases hc : p c
    · simpa [List.dropWhile, hc] using ih (adjOK_tail h)
    · simpa [List.dropWhile, hc] using h

theorem adjOK_drop {R : Char → Char → Bool} (n : Nat)
    {l : List Char} (h : adjOK R l = true) :
    adjOK R (l.drop n) = true := by
  induction n generalizing l with
  | zero => simpa using h
  | succ n ih =>
    cases l with
    | nil => rfl
    | cons c t => exact ih (adjOK_tail h)

/-- "No two consecutive whitespace characters". -/
def noTwoWS : List Char → Bool :=
  adjOK (fun a b => !(isWS a && isWS b))

/-- "No whitespace adjacent to a CSS symbol" (in either order). -/
def noWsSym : List Char → Bool :=
  adjOK (fun a b => !(isWS a && isSym b) && !(isSym a && isWS b))

end Build

namespace Build

theorem length_dropWhile_le (p : Char → Bool) (l : List Char) :
    (l.dropWhile p).length ≤ l.length :=
  (List.dropWhile_sublist p).length_le

theorem dropWhile_cons_lt (p : Char → Bool) (a : Char) (l r : List Char)
    (h : l.dropWhile p = a :: r) :
    (r.dropWhile p).length < l.length + 1 := by
  have h1 : (a :: r).length ≤ l.length := h ▸ length_dropWhile_le p l
  have h2 := length_dropWhile_le p r
  simp only [List.length_cons] at h1
  omega

theorem dropWhile_cons_tail_lt (p : Char → Bool) (a : Char) (l r : List Char)
    (h : l.dropWhile p = a :: r) : r.length < l.length + 1 := by
  have h1 : (a :: r).length ≤ l.length := h ▸ length_dropWhile_le p l
  simp only [List.length_cons] at h1
  omega

/-! ### Lazy block removal (comments)

`String.replace(/open[\s\S]*?close/g, "")`-style removal: at each scan
position, if the opening delimiter matches, the match extends lazily to the
nearest closing delimiter and the whole block is dropped; scanning resumes
after the match.  If no closing delimiter follows, there is no match at
this position and the character is kept. -/

def stripBlockFuel (op cl : List Char) : Nat → List Char → List Char
  | 0, _ => []
  | _, [] => []
  | fuel + 1, c :: rest =>
    if op.isPrefixOf (c :: rest) then
      match splitFirst cl ((c :: rest).drop op.length) with
      | some (_, after) => stripBlockFuel op cl fuel after
      | none => c :: stripBlockFuel op cl fuel rest
    else c :: stripBlockFuel op cl fuel rest

/-- Each scan step consumes at least one character, so fuel equal to the
input length makes the fueled scan exhaustive. -/
def stripBlock (op cl : List Char) (l : List Char) : List Char :=
  stripBlockFuel op cl l.length l

/-- `minifyCSS` pass 1: `css.replace(/\/\*[\s\S]*?\*\//g, "")`. -/
def stripCSSComments (l : List Char) : List Char :=
  stripBlock ['/', '*'] ['*', '/'] l

/-- `minifyHTML` pass 1: `html.replace(/<!--[\s\S]*?-->/g, "")`. -/
def stripHTMLComments (l : List Char) : List Char :=
  stripBlock ['<', '!', '-', '-'] ['-', '-', '>'] l

/-! ### CSS minification passes 2-4 and trim -/

/-- `minifyCSS` pass 2: `.replace(/\s+/g, " ")` — every maximal whitespace
run becomes a single space. -/
def cssCollapseFuel : Nat → List Char → List Char
  | 0, _ => []
  | _, [] => []
  | fuel + 1, c :: cs =>
    if isWS c then ' ' :: cssCollapseFuel fuel (cs.dropWhile isWS)
    else c :: cssCollapseFuel fuel cs

def cssCollapseWS (l : List Char) : List Char :=
  cssCollapseFuel l.length l

/-- `minifyCSS` pass 3: `.replace(/\s*([{}:;,])\s*/g, "$1")` — a match is a
(possibly empty) whitespace run followed by a symbol and its trailing
whitespace run; the replacement is the captured symbol. -/
def cssTightenFuel : Nat → List Char → List Char
  | 0, _ => []
  | _, [] => []
  | fuel + 1, c :: cs =>
    if isSym c then c :: cssTightenFuel fuel (cs.dropWhile isWS)
    else
      if isWS c then
        match cs.dropWhile isWS with
        | s :: r2 =>
          if isSym s then s :: cssTightenFuel fuel (r2.dropWhile isWS)
          else c :: cssTightenFuel fuel cs
        | [] => c :: cssTightenFuel fuel cs
      else c :: cssTightenFuel fuel cs

def cssTightenSyms (l : List Char) : List Char :=
  cssTightenFuel l.length l

/-- `minifyCSS` pass 4: `.replace(/;}/g, "}")`: each `;}` becomes `}` and
scanning resumes after it. -/
def cssDropSemisFuel : Nat → List Char → List Char
  | 0, _ => []
  | _, [] => []
  | fuel + 1, c :: t =>
    if c = ';' && t.headD 'x' = '\x7d' then
      '\x7d' :: cssDropSemisFuel fuel t.tail
    else c :: cssDropSemisFuel fuel t

def cssDropSemis (l : List Char) : List Char :=
  cssDropSemisFuel l.length l

/-- `String.prototype.trim`: drop leading and trailing whitespace
(JS WhiteSpace and LineTerminator characters, all in `isWS`). -/
def dropTrailWS (l : List Char) : List Char :=
  l.foldr (fun c acc => if acc.isEmpty && isWS c then [] else c :: acc) []

def jsTrim (l : List Char) : List Char :=
  dropTrailWS (l.dropWhile isWS)

/-- The whole of `minifyCSS` (build script lines 58-65): comments removed,
whitespace collapsed, spaces around `{ } : ; ,` removed, `;}` reduced to
`}`, and the result trimmed. -/
def minifyCSS (l : List Char) : List Char :=
  jsTrim (cssDropSemis (cssTightenSyms (cssCollapseWS (stripCSSComments l))))

end Build

namespace Build

/-! ### HTML minification passes 2-5 -/

/-- `minifyHTML` pass 2: `.replace(/>\s+</g, "><")` — a `>` followed by at
least one whitespace character and a `<` loses the whitespace; scanning
resumes after the consumed `<`. -/
def htmlTightenFuel : Nat → List Char → List Char
  | 0, _ => []
  | _, [] => []
  | fuel + 1, c :: cs =>
    if c = '>' then
      match cs.dropWhile isWS with
      | '<' :: r3 =>
        if (cs.takeWhile isWS).isEmpty then '>' :: htmlTightenFuel fuel cs
        else '>' :: '<' :: htmlTightenFuel fuel r3
      | _ => '>' :: htmlTightenFuel fuel cs
    else c :: htmlTightenFuel fuel cs

def htmlTightenTags (l : List Char) : List Char :=
  htmlTightenFuel l.length l

/-- `minifyHTML` pass 3: `.replace(/\s{2,}/g, " ")` — every maximal
whitespace run of length at least two becomes a single space. -/
def htmlCollapseFuel : Nat → List Char → List Char
  | 0, _ => []
  | _, [] => []
  | fuel + 1, c :: cs =>
    if isWS c && isWS (cs.headD 'x') then
      ' ' :: htmlCollapseFuel fuel (cs.dropWhile isWS)
    else c :: htmlCollapseFuel fuel cs

def htmlCollapseWS (l : List Char) : List Char :=
  htmlCollapseFuel l.length l

/-- Index of the last line terminator in a list, if any. -/
def lastTermIdx : List Char → Option Nat
  | [] => none
  | c :: t =>
    match lastTermIdx t with
    | some k => some (k + 1)
    | none => if lineTerm c then some 0 else none

theorem lastTermIdx_lt {l : List Char} {k : Nat}
    (h : lastTermIdx l = some k) : k < l.length := by
  induction l generalizing k with
  | nil => simp [lastTermIdx] at h
  | cons c t ih =>
    simp only [lastTermIdx] at h
    cases ht : lastTermIdx t with
    | some j =>
      rw [ht] at h
      simp only [Option.some.injEq] at h
      have := ih ht
      simp only [List.length_cons]
      omega
    | none =>
      rw [ht] at h
      by_cases hc : lineTerm c
      · simp [hc] at h
        simp [← h]
      · simp [hc] at h

/-- Greedy-with-backtracking semantics of the alternative `\s+$` (multiline)
at a position whose maximal whitespace run is `run`, with `restEmpty`
telling whether the run extends to the end of the string: the largest
number of whitespace characters that can be consumed so that the position
after them is end-of-string or directly before a line terminator. -/
def bestK (run : List Char) (restEmpty : Bool) : Option Nat :=
  if restEmpty && !run.isEmpty then some run.length
  else
    match run with
    | [] => none
    | _ :: t => (lastTermIdx t).map (· + 1)

theorem bestK_pos {run : List Char} {re : Bool} {k : Nat}
    (h : bestK run re = some k) : 0 < k ∧ k ≤ run.length := by
  unfold bestK at h
  by_cases hc : (re && !run.isEmpty) = true
  · rw [if_pos hc] at h
    simp only [Option.some.injEq] at h
    subst h
    simp only [Bool.and_eq_true, Bool.not_eq_true'] at hc
    constructor
    · cases run with
      | nil => simp [List.isEmpty] at hc
      | cons a t => simp
    · exact Nat.le_refl _
  · rw [if_neg hc] at h
    cases run with
    | nil => simp at h
    | cons a t =>
      simp only [Option.map_eq_some'] at h
      obtain ⟨j, hj, hk⟩ := h
      have := lastTermIdx_lt hj
      simp only [List.length_cons]
      omega

/-- `minifyHTML` pass 4: `.replace(/^\s+|\s+$/gm, "")`.  The scan carries a
flag telling whether multiline `^` matches at the current position (start
of string, or the previous character was a line terminator).  When `^`
applies and the head is whitespace, the first alternative consumes the
maximal whitespace run; otherwise on a whitespace head the second
alternative consumes the longest run prefix ending at a `$` position
(see `bestK`); when neither matches, the character is kept. -/
def htmlTrimFuel : Nat → Bool → List Char → List Char
  | 0, _, _ => []
  | _, _, [] => []
  | fuel + 1, atB, c :: cs =>
    if atB && isWS c then
      htmlTrimFuel fuel
        (lineTerm ((((c :: cs).takeWhile isWS).getLast?).getD ' '))
        (cs.dropWhile isWS)
    else
      if isWS c then
        match bestK ((c :: cs).takeWhile isWS)
            ((c :: cs).dropWhile isWS).isEmpty with
        | some k =>
          htmlTrimFuel fuel
            (lineTerm (((c :: cs).takeWhile isWS).getD (k - 1) ' '))
            (cs.drop (k - 1))
        | none => c :: htmlTrimFuel fuel (lineTerm c) cs
      else c :: htmlTrimFuel fuel (lineTerm c) cs

def htmlTrimLines (atB : Bool) (l : List Char) : List Char :=
  htmlTrimFuel l.length atB l

end Build

namespace Build

/-- `minifyHTML` pass 5: `.replace(/\n+/g, "")` — removes every newline
character (a run of newlines is replaced by the empty string, which is the
same as removing each newline). -/
def htmlDropNewlines (l : List Char) : List Char :=
  l.filter (fun c => c ≠ '\n')

/-- The whole of `minifyHTML` (build script lines 273-281): comments
removed, inter-tag whitespace removed, whitespace runs collapsed,
line-leading/trailing whitespace trimmed, newlines removed, ends trimmed. -/
def minifyHTML (l : List Char) : List Char :=
  jsTrim (htmlDropNewlines (htmlTrimLines true
    (htmlCollapseWS (htmlTightenTags (stripHTMLComments l)))))

end Build

namespace Build

/-! ### JavaScript `String.replace` with a string pattern

`s.replace(pat, v)` replaces the first occurrence of `pat` and interprets
`$`-sequences in the replacement string `v` (ECMA-262 GetSubstitution):
`$$` is a literal dollar, `$&` the matched text, a dollar followed by a
backquote the text before the match, `$'` the text after the match; any
other `$` is literal (a string pattern has no capture groups). -/

def getSubstFuel (pat before after : List Char) : Nat → List Char → List Char
  | 0, _ => []
  | _, [] => []
  | fuel + 1, c :: t =>
    if c = '$' then
      match t with
      | [] => ['$']
      | d :: t2 =>
        if d = '$' then '$' :: getSubstFuel pat before after fuel t2
        else if d = '&' then pat ++ getSubstFuel pat before after fuel t2
        else if d = Char.ofNat 96 then
          before ++ getSubstFuel pat before after fuel t2
        else if d = '\'' then after ++ getSubstFuel pat before after fuel t2
        else '$' :: getSubstFuel pat before after fuel (d :: t2)
    else c :: getSubstFuel pat before after fuel t

def getSubst (v pat before after : List Char) : List Char :=
  getSubstFuel pat before after v.length v

/-- `s.replace(pat, v)` for a string search pattern: replace the first
occurrence only, with `$`-substitution in the replacement. -/
def jsReplaceFirst (l pat v : List Char) : List Char :=
  match splitFirst pat l with
  | none => l
  | some (b, a) => b ++ getSubst v pat b a ++ a

/-! ### Content injection (`injectDynamicContent`, build script lines 198-262)

Placeholder markers are written as explicit character lists (they contain
curly braces). -/

def labelMarker : List Char :=
  ['\x7b', '\x7b', 'L', 'A', 'B', 'E', 'L', '\x7d', '\x7d']

def destMarker : List Char :=
  ['\x7b', '\x7b', 'D', 'E', 'S', 'T', 'I', 'N', 'A', 'T', 'I', 'O', 'N',
   '\x7d', '\x7d']

def amountMarker : List Char :=
  ['\x7b', '\x7b', 'A', 'M', 'O', 'U', 'N', 'T', '\x7d', '\x7d']

def titleMarker : List Char :=
  ['\x7b', '\x7b', 'T', 'I', 'T', 'L', 'E', '\x7d', '\x7d']

def descMarker : List Char :=
  ['\x7b', '\x7b', 'D', 'E', 'S', 'C', 'R', 'I', 'P', 'T', 'I', 'O', 'N',
   '\x7d', '\x7d']

def ctaMarker : List Char :=
  ['\x7b', '\x7b', 'C', 'T', 'A', '\x7d', '\x7d']

/-- Header navigation injection (lines 200-204): for each nav item the
first remaining `LABEL` marker and then the first remaining `DESTINATION`
marker are replaced. -/
def injectNav (items : List (List Char × List Char)) (tpl : List Char) :
    List Char :=
  items.foldl
    (fun acc it =>
      jsReplaceFirst (jsReplaceFirst acc labelMarker it.1) destMarker it.2)
    tpl

/-- Invoice amounts injection (lines 217-219): for each amount the first
remaining `AMOUNT` marker is replaced. -/
def injectAmounts (amounts : List (List Char)) (tpl : List Char) :
    List Char :=
  amounts.foldl (fun acc a => jsReplaceFirst acc amountMarker a) tpl

/-- Hero section injection (lines 207-210): first-occurrence replacement
of the `TITLE`, `DESCRIPTION` and `CTA` markers. -/
def injectHero (tpl title desc cta : List Char) : List Char :=
  jsReplaceFirst (jsReplaceFirst (jsReplaceFirst tpl titleMarker title)
    descMarker desc) ctaMarker cta

/-! ### `/public/` URL rewriting (build script lines 338-339) -/

def pubMarker : List Char := ['/', 'p', 'u', 'b', 'l', 'i', 'c', '/']

/-- `html.replace(/\/public\//g, "/")`: left-to-right, non-overlapping;
each match of `/public/` becomes `/` and scanning resumes after the
match. -/
def stripPublicFuel : Nat → List Char → List Char
  | 0, _ => []
  | _, [] => []
  | fuel + 1, c :: rest =>
    if pubMarker.isPrefixOf (c :: rest) then
      '/' :: stripPublicFuel fuel ((c :: rest).drop pubMarker.length)
    else c :: stripPublicFuel fuel rest

def stripPublic (l : List Char) : List Char :=
  stripPublicFuel l.length l

end Build

namespace Build

/-! ### Link validator (`validateLinks`, build script lines 382-417)

Link extraction follows `/(?:href|src)=["']([^"':#?][^"']*)["']/g`: the
attribute name and `=`, a quote, a first character that is none of
`"` `'` `:` `#` `?`, a greedy run of non-quote characters, and a closing
quote.  The capture is the first character plus the run. -/

def linkStart (c : Char) : Bool :=
  !(c = '"' || c = '\'' || c = ':' || c = '#' || c = '?')

def matchAttrTail : List Char → Option (List Char × List Char)
  | q :: c0 :: r =>
    if isQuote q && linkStart c0 then
      match r.dropWhile (fun c => !isQuote c) with
      | _ :: after => some (c0 :: r.takeWhile (fun c => !isQuote c), after)
      | [] => none
    else none
  | _ => none

theorem matchAttrTail_lt {l lk after : List Char}
    (h : matchAttrTail l = some (lk, after)) : after.length + 2 ≤ l.length := by
  match l with
  | [] => simp [matchAttrTail] at h
  | [q] => simp [matchAttrTail] at h
  | q :: c0 :: r =>
    simp only [matchAttrTail] at h
    by_cases hc : (isQuote q && linkStart c0) = true
    · rw [if_pos hc] at h
      cases hd : r.dropWhile (fun c => !isQuote c) with
      | nil => rw [hd] at h; simp at h
      | cons x xs =>
        rw [hd] at h
        simp only [Option.some.injEq, Prod.mk.injEq] at h
        obtain ⟨h1, h2⟩ := h
        subst h2
        have : (x :: xs).length ≤ r.length := hd ▸ length_dropWhile_le _ r
        simp only [List.length_cons] at *
        omega
    · rw [if_neg hc] at h; simp at h

def hrefEq : List Char := ['h', 'r', 'e', 'f', '=']

def srcEq : List Char := ['s', 'r', 'c', '=']

def matchAttr (l : List Char) : Option (List Char × List Char) :=
  if hrefEq.isPrefixOf l then matchAttrTail (l.drop 5)
  else if srcEq.isPrefixOf l then matchAttrTail (l.drop 4)
  else none

theorem matchAttr_lt {l lk after : List Char}
    (h : matchAttr l = some (lk, after)) : after.length < l.length := by
  unfold matchAttr at h
  by_cases h5 : hrefEq.isPrefixOf l
  · rw [if_pos h5] at h
    have hlen : hrefEq.length ≤ l.length := isPrefixOf_length_le h5
    have := matchAttrTail_lt h
    simp only [List.length_drop] at this
    simp only [hrefEq, List.length_cons, List.length_nil] at hlen
    omega
  · rw [if_neg h5] at h
    by_cases h4 : srcEq.isPrefixOf l
    · rw [if_pos h4] at h
      have hlen : srcEq.length ≤ l.length := isPrefixOf_length_le h4
      have := matchAttrTail_lt h
      simp only [List.length_drop] at this
      simp only [srcEq, List.length_cons, List.length_nil] at hlen
      omega
    · rw [if_neg h4] at h; simp at h

/-- All capture groups of the extraction regex, in scan order. -/
def extractFuel : Nat → List Char → List (List Char)
  | 0, _ => []
  | _, [] => []
  | fuel + 1, c :: rest =>
    match matchAttr (c :: rest) with
    | some (link, after) => link :: extractFuel fuel after
    | none => extractFuel fuel rest

def extractAttrLinks (l : List Char) : List (List Char) :=
  extractFuel l.length l

/-- `link.split("?")[0]` / `.split("#")[0]`. -/
def takeUntil (ch : Char) (l : List Char) : List Char :=
  l.takeWhile (fun c => c ≠ ch)

def dropQueryFrag (link : List Char) : List Char :=
  takeUntil '#' (takeUntil '?' link)

/-- `if (targetPath.endsWith("/")) targetPath += "index.html"`. -/
def addIndex (t : List Char) : List Char :=
  if t.getLast? = some '/' then t ++ ('i' :: 'n' :: 'd' :: 'e' :: 'x' ::
    '.' :: 'h' :: 't' :: 'm' :: 'l' :: []) else t

/-- Segment split on `/`. -/
def splitSlash (l : List Char) : List (List Char) :=
  l.foldr
    (fun c acc =>
      if c = '/' then [] :: acc else (c :: acc.headD []) :: acc.tail)
    [[]]

/-- Models the path normalization done by Node's `path.join(publicDir, t)`,
expressed relative to the public directory: empty and `.` segments are
dropped and `..` pops the previous segment (a `..` that would escape the
public directory is dropped; no claim exercises that case). -/
def normSegs (segs : List (List Char)) : List (List Char) :=
  segs.foldl
    (fun stack seg =>
      if seg.isEmpty || seg = ['.'] then stack
      else if seg = ['.', '.'] then stack.dropLast
      else stack ++ [seg])
    []

def resolvePublic (t : List Char) : List Char :=
  List.intercalate ['/'] (normSegs (splitSlash t))

def startsWithHttp (lk : List Char) : Bool :=
  (['h', 't', 't', 'p'] : List Char).isPrefixOf lk

def startsWithSlashes (lk : List Char) : Bool :=
  (['/', '/'] : List Char).isPrefixOf lk

/-- The per-file while loop of `validateLinks`.  `existing` is the set of
files under the output root (as normalized relative paths).  Faithful to
the source bug: the `return` taken for an external link exits the whole
per-file callback, so every remaining link of that file is skipped. -/
def checkLinks (existing : List (List Char)) :
    List (List Char) → List (List Char)
  | [] => []
  | lk :: rest =>
    if startsWithHttp lk || startsWithSlashes lk then []
    else
      (if existing.contains (resolvePublic (addIndex (dropQueryFrag lk)))
        then [] else [lk]) ++ checkLinks existing rest

/-- Warnings produced for one HTML file's content. -/
def fileWarnings (existing : List (List Char)) (content : List Char) :
    List (List Char) :=
  checkLinks existing (extractAttrLinks content)

/-- Warnings produced by `validateLinks` over all produced HTML files
(the `return` bug is per-file; later files are still scanned). -/
def validateLinks (existing : List (List Char))
    (files : List (List Char)) : List (List Char) :=
  (files.map (fileWarnings existing)).join

end Build

namespace Build

/-! ### CSS `@import` scanning (`inlineCSS`, build script lines 74-88)

The statement regex is `/@import\s+["'](.+?)["'];/g`: the literal word,
at least one whitespace character, an opening quote (either kind), a lazy
nonempty run of non-line-terminator characters, a closing quote (either
kind) and a semicolon. -/

/-- Lazy scan for the end of the capture: the capture closes at the first
position where it is nonempty and followed by a quote and a `;`.  Returns
the capture and the characters after the `;`. -/
def findCap (acc : List Char) : List Char → Option (List Char × List Char)
  | [] => none
  | a :: rest =>
    if !acc.isEmpty && isQuote a && rest.headD 'x' = ';' then
      some (acc.reverse, rest.tail)
    else if lineTerm a then none
    else findCap (a :: acc) rest

theorem findCap_lt {acc l q rest : List Char}
    (h : findCap acc l = some (q, rest)) : rest.length < l.length := by
  induction l generalizing acc with
  | nil => simp [findCap] at h
  | cons a t ih =>
    simp only [findCap] at h
    by_cases h1 : (!acc.isEmpty && isQuote a && t.headD 'x' = ';') = true
    · rw [if_pos h1] at h
      simp only [Option.some.injEq, Prod.mk.injEq] at h
      obtain ⟨_, h2⟩ := h
      subst h2
      have := List.length_tail t
      cases t with
      | nil =>
        simp only [Bool.and_eq_true, decide_eq_true_eq] at h1
        simp [List.headD] at h1
      | cons x xs => simp [List.tail]; omega
    · rw [if_neg h1] at h
      by_cases h2 : lineTerm a
      · rw [if_pos h2] at h; simp at h
      · rw [if_neg h2] at h
        have := ih h
        simp only [List.length_cons]
        omega

def importWord : List Char := ['@', 'i', 'm', 'p', 'o', 'r', 't']

/-- Try to match the `@import` statement regex at the start of `l`;
returns the captured path and the rest after the whole match. -/
def matchImport (l : List Char) : Option (List Char × List Char) :=
  if importWord.isPrefixOf l then
    let r := l.drop 7
    if (r.takeWhile isWS).isEmpty then none
    else
      if isQuote ((r.dropWhile isWS).headD 'x') then
        findCap [] (r.dropWhile isWS).tail
      else none
  else none

theorem matchImport_lt {l q after : List Char}
    (h : matchImport l = some (q, after)) : after.length < l.length := by
  unfold matchImport at h
  by_cases hw : importWord.isPrefixOf l
  · rw [if_pos hw] at h
    simp only at h
    by_cases he : ((l.drop 7).takeWhile isWS).isEmpty
    · rw [if_pos he] at h; simp at h
    · rw [if_neg he] at h
      by_cases hq : isQuote (((l.drop 7).dropWhile isWS).headD 'x')
      · rw [if_pos hq] at h
        have h1 := findCap_lt h
        have h2 : ((l.drop 7).dropWhile isWS).tail.length ≤
            (l.drop 7).length := by
          have ha := List.length_tail ((l.drop 7).dropWhile isWS)
          have hb := length_dropWhile_le isWS (l.drop 7)
          omega
        have h3 : importWord.length ≤ l.length := isPrefixOf_length_le hw
        have h4 : ¬ (l.drop 7).takeWhile isWS = [] := by
          intro hx
          exact he (by simp [hx])
        have h5 : l.drop 7 ≠ [] := by
          intro hx
          exact h4 (by simp [hx])
        have h6 : 0 < (l.drop 7).length := List.length_pos.mpr h5
        simp only [importWord, List.length_cons, List.length_nil] at h3
        simp only [List.length_drop] at h2 h6
        omega
      · rw [if_neg hq] at h; simp at h
  · rw [if_neg hw] at h; simp at h

/-- A CSS file's content as the replacement scan sees it: plain characters
and `@import` statements with their captured (unresolved) paths. -/
inductive CTok where
  | chr (c : Char)
  | imp (path : List Char)

def tokenizeFuel : Nat → List Char → List CTok
  | 0, _ => []
  | _, [] => []
  | fuel + 1, c :: rest =>
    match matchImport (c :: rest) with
    | some (q, after) => CTok.imp q :: tokenizeFuel fuel after
    | none => CTok.chr c :: tokenizeFuel fuel rest

def tokenizeCSS (l : List Char) : List CTok :=
  tokenizeFuel l.length l

/-! ### Path handling (Node `path.dirname` / `path.resolve`, POSIX)

The build script resolves each import against the importing file's
directory: `path.resolve(path.dirname(filePath), importPath)`.  The model
covers absolute importing paths (the script always starts from an absolute
`inputPath`), normalizing `.`, `..`, and duplicate separators. -/

def dirname (p : List Char) : List Char :=
  match p.reverse.dropWhile (fun c => c ≠ '/') with
  | [] => ['.']
  | _ :: t => if t.isEmpty then ['/'] else t.reverse

def resolveAbs (dir imp : List Char) : List Char :=
  let full := if imp.headD 'x' = '/' then imp else dir ++ '/' :: imp
  '/' :: List.intercalate ['/'] (normSegs (splitSlash full))

def resolveImport (p q : List Char) : List Char :=
  resolveAbs (dirname p) q

/-! ### The recursive inliner

The in-memory file system is an association list from absolute paths to
file contents.  `seen` models the JavaScript `Set` passed through the
recursion (mutated in place, hence threaded through sibling imports).
The `fuel` argument bounds the recursion depth; `fuelOf` fuel is proved
sufficient below, which is the termination argument for the JavaScript
recursion. -/

abbrev FS := List (List Char × List Char)

def lookupFS : FS → List Char → Option (List Char)
  | [], _ => none
  | (k, v) :: t, p => if k = p then some v else lookupFS t p

def fsPaths (fs : FS) : List (List Char) :=
  (fs.map Prod.fst).dedup

def fuelOf (fs : FS) : Nat := (fsPaths fs).length + 1

def freshCount (fs : FS) (seen : List (List Char)) : Nat :=
  ((fsPaths fs).filter (fun p => !seen.contains p)).length

structure InlineRes where
  out : List Char
  seen : List (List Char)
  warns : List (List Char)
deriving DecidableEq

/-- One step of the replacement callback fold over a file's tokens: plain
characters are copied; an `@import` whose resolved target is missing warns
and contributes the empty string; otherwise the target is inlined by
`inline` (the recursive call, taken as an argument so that the fold is
structural) with the threaded seen set. -/
def impStep (fs : FS) (p : List Char)
    (inline : List Char → List (List Char) → Option InlineRes)
    (acc : Option InlineRes) (tok : CTok) : Option InlineRes :=
  match acc with
  | none => none
  | some r =>
    match tok with
    | CTok.chr c => some ⟨r.out ++ [c], r.seen, r.warns⟩
    | CTok.imp q =>
      if lookupFS fs (resolveImport p q) = none then
        some ⟨r.out, r.seen, r.warns ++ [resolveImport p q]⟩
      else
        match inline (resolveImport p q) r.seen with
        | none => none
        | some r2 => some ⟨r.out ++ r2.out, r2.seen, r.warns ++ r2.warns⟩

/-- `inlineCSS(filePath, seen)`: an already-seen path yields the empty
string; otherwise the path is marked seen, its content read (a missing
file at this point can only be the entry file, whose absence aborts the
build before any output is produced), and the `@import` statements are
replaced left to right with the seen set threaded through (the JavaScript
`Set` is mutated in place).  `fuel` bounds the recursion depth; `fuelOf`
fuel is proved sufficient below, which is the termination argument for the
JavaScript recursion.  A `none` result means the fuel ran out. -/
def inlineFuel : Nat → FS → List Char → List (List Char) → Option InlineRes
  | 0, _, _, _ => none
  | fuel + 1, fs, p, seen =>
    if seen.contains p then some ⟨[], seen, []⟩
    else
      (tokenizeCSS ((lookupFS fs p).getD [])).foldl
        (impStep fs p (inlineFuel fuel fs)) (some ⟨[], p :: seen, []⟩)

/-- The bundling entry point: `inlineCSS(inputPath)` with an empty seen
set and sufficient fuel. -/
def inlineCSSRun (fs : FS) (entry : List Char) : Option InlineRes :=
  inlineFuel (fuelOf fs) fs entry []

/-- The order in which the inliner first visits (and hence inlines) files:
the seen set is extended by prepending, so its reverse is the visit
order. -/
def visitedOf (fs : FS) (entry : List Char) : List (List Char) :=
  (((inlineCSSRun fs entry).map InlineRes.seen).getD []).reverse

/-! ### The specification's view of the traversal -/

/-- The import graph: the children of `p` are the resolved targets of its
`@import` statements, in order of appearance. -/
def childrenOf (fs : FS) (p : List Char) : List (List Char) :=
  (tokenizeCSS ((lookupFS fs p).getD [])).filterMap fun t =>
    match t with
    | CTok.imp q => some (resolveImport p q)
    | CTok.chr _ => none

/-- Modelled from the spec: "a standard depth-first traversal with a
seen-set over resolved absolute paths" (design notes, with component
design 4.1).  A node already seen is skipped; otherwise it is marked and
its existing children are traversed depth-first, left to right.  Missing
files are not nodes ("a second import of an already-seen file resolves to
empty content; missing imported files substitute empty content"). -/
def dfsFuel : Nat → FS → List Char → List (List Char) →
    Option (List (List Char))
  | 0, _, _, _ => none
  | fuel + 1, fs, p, seen =>
    if seen.contains p then some seen
    else
      (childrenOf fs p).foldl
        (fun acc q =>
          match acc with
          | none => none
          | some sn =>
            if lookupFS fs q = none then some sn
            else dfsFuel fuel fs q sn)
        (some (p :: seen))

/-- Modelled from the spec: the depth-first encounter order of the files
reachable from the entry. -/
def specDFSOrder (fs : FS) (entry : List Char) : List (List Char) :=
  ((dfsFuel (fuelOf fs) fs entry []).getD []).reverse

end Build

namespace Build

/-! ### MD5 (`getContentHash`, build script lines 96-98)

`crypto.createHash("md5").update(content).digest("hex").slice(0, 8)`:
the content string is UTF-8 encoded, hashed with MD5 (RFC 1321), the
digest rendered as 32 lowercase hex characters, of which the first 8 are
kept.  Machine words are `Nat` reduced modulo `2^32`. -/

namespace MD5

def w32 (n : Nat) : Nat := n % 4294967296

def rotl (x s : Nat) : Nat :=
  w32 (x <<< s) ||| (x >>> (32 - s))

def notw (x : Nat) : Nat := 4294967295 ^^^ x

/-- Round constants `floor(abs(sin(i+1)) * 2^32)`. -/
def kTab : List Nat := [
  0xd76aa478, 0xe8c7b756, 0x242070db, 0xc1bdceee,
  0xf57c0faf, 0x4787c62a, 0xa8304613, 0xfd469501,
  0x698098d8, 0x8b44f7af, 0xffff5bb1, 0x895cd7be,
  0x6b901122, 0xfd987193, 0xa679438e, 0x49b40821,
  0xf61e2562, 0xc040b340, 0x265e5a51, 0xe9b6c7aa,
  0xd62f105d, 0x02441453, 0xd8a1e681, 0xe7d3fbc8,
  0x21e1cde6, 0xc33707d6, 0xf4d50d87, 0x455a14ed,
  0xa9e3e905, 0xfcefa3f8, 0x676f02d9, 0x8d2a4c8a,
  0xfffa3942, 0x8771f681, 0x6d9d6122, 0xfde5380c,
  0xa4beea44, 0x4bdecfa9, 0xf6bb4b60, 0xbebfbc70,
  0x289b7ec6, 0xeaa127fa, 0xd4ef3085, 0x04881d05,
  0xd9d4d039, 0xe6db99e5, 0x1fa27cf8, 0xc4ac5665,
  0xf4292244, 0x432aff97, 0xab9423a7, 0xfc93a039,
  0x655b59c3, 0x8f0ccc92, 0xffeff47d, 0x85845dd1,
  0x6fa87e4f, 0xfe2ce6e0, 0xa3014314, 0x4e0811a1,
  0xf7537e82, 0xbd3af235, 0x2ad7d2bb, 0xeb86d391]

/-- Per-round left-rotation amounts. -/
def sTab : List Nat := [
  7, 12, 17, 22, 7, 12, 17, 22, 7, 12, 17, 22, 7, 12, 17, 22,
  5, 9, 14, 20, 5, 9, 14, 20, 5, 9, 14, 20, 5, 9, 14, 20,
  4, 11, 16, 23, 4, 11, 16, 23, 4, 11, 16, 23, 4, 11, 16, 23,
  6, 10, 15, 21, 6, 10, 15, 21, 6, 10, 15, 21, 6, 10, 15, 21]

/-- One MD5 round: `i` is the round index, `m` the 16 message words of the
current block, `(a, b, c, d)` the state. -/
def step (m : List Nat) (st : Nat × Nat × Nat × Nat) (i : Nat) :
    Nat × Nat × Nat × Nat :=
  let (a, b, c, d) := st
  let f :=
    if i < 16 then (b &&& c) ||| (notw b &&& d)
    else if i < 32 then (d &&& b) ||| (notw d &&& c)
    else if i < 48 then b ^^^ c ^^^ d
    else c ^^^ (b ||| notw d)
  let g :=
    if i < 16 then i
    else if i < 32 then (5 * i + 1) % 16
    else if i < 48 then (3 * i + 5) % 16
    else (7 * i) % 16
  let f2 := w32 (f + a + kTab.getD i 0 + m.getD g 0)
  (d, w32 (b + rotl f2 (sTab.getD i 0)), b, c)

/-- Process one 64-byte block (16 little-endian words). -/
def processBlock (st : Nat × Nat × Nat × Nat) (block : List Nat) :
    Nat × Nat × Nat × Nat :=
  let m := (List.range 16).map fun i =>
    block.getD (4 * i) 0 + 256 * block.getD (4 * i + 1) 0 +
    65536 * block.getD (4 * i + 2) 0 + 16777216 * block.getD (4 * i + 3) 0
  let (a0, b0, c0, d0) := st
  let (a, b, c, d) := (List.range 64).foldl (step m) st
  (w32 (a0 + a), w32 (b0 + b), w32 (c0 + c), w32 (d0 + d))

/-- RFC 1321 padding: a `0x80` byte, zeros to 56 mod 64, then the bit
length as 8 little-endian bytes. -/
def padded (msg : List Nat) : List Nat :=
  let len := msg.length
  let padLen := (119 - len % 64) % 64
  let bitLen := (len * 8) % 18446744073709551616
  msg ++ 128 :: List.replicate padLen 0 ++
    (List.range 8).map fun i => bitLen / (256 ^ i) % 256

def chunksFuel : Nat → List Nat → List (List Nat)
  | 0, _ => []
  | _, [] => []
  | fuel + 1, a :: rest =>
    (a :: rest).take 64 :: chunksFuel fuel ((a :: rest).drop 64)

def chunks64 (l : List Nat) : List (List Nat) :=
  chunksFuel l.length l

def wordLEBytes (w : Nat) : List Nat :=
  [w % 256, w / 256 % 256, w / 65536 % 256, w / 16777216 % 256]

/-- The 16 digest bytes of a byte message. -/
def md5Bytes (msg : List Nat) : List Nat :=
  let init : Nat × Nat × Nat × Nat :=
    (0x67452301, 0xefcdab89, 0x98badcfe, 0x10325476)
  let (a, b, c, d) := (chunks64 (padded msg)).foldl processBlock init
  wordLEBytes a ++ wordLEBytes b ++ wordLEBytes c ++ wordLEBytes d

def hexDigit (n : Nat) : Char :=
  if n < 10 then Char.ofNat (48 + n) else Char.ofNat (87 + n)

def byteHex (b : Nat) : List Char := [hexDigit (b / 16), hexDigit (b % 16)]

/-- Lowercase hex rendering of the digest. -/
def md5hex (msg : List Nat) : List Char := (md5Bytes msg).map byteHex |>.join

end MD5

/-- UTF-8 encoding of one character (what `hash.update(string)` hashes). -/
def utf8Bytes (c : Char) : List Nat :=
  let n := c.toNat
  if n < 128 then [n]
  else if n < 2048 then [192 ||| (n >>> 6), 128 ||| (n &&& 63)]
  else if n < 65536 then
    [224 ||| (n >>> 12), 128 ||| ((n >>> 6) &&& 63), 128 ||| (n &&& 63)]
  else
    [240 ||| (n >>> 18), 128 ||| ((n >>> 12) &&& 63),
     128 ||| ((n >>> 6) &&& 63), 128 ||| (n &&& 63)]

def utf8Encode (l : List Char) : List Nat := (l.map utf8Bytes).join

/-- `getContentHash` (build script lines 96-98): first 8 hex characters of
the MD5 digest of the content. -/
def getContentHash (content : List Char) : List Char :=
  (MD5.md5hex (utf8Encode content)).take 8

/-- The hashed output filename of `compileCSSBundleWithHash`
(line 112): `bundle.<hash>.css`, the hash taken over the minified CSS. -/
def bundleFileName (minified : List Char) : List Char :=
  ('b' :: 'u' :: 'n' :: 'd' :: 'l' :: 'e' :: '.' :: []) ++
  getContentHash minified ++ ('.' :: 'c' :: 's' :: 's' :: [])

/-- `compileCSSBundleWithHash` (lines 106-120) up to its filesystem
effects: inline the entry file's imports, minify, and name the output
after the content hash of the minified bundle. -/
def compileCSSBundle (fs : FS) (entry : List Char) :
    Option (List Char × List Char) :=
  (inlineCSSRun fs entry).map fun r =>
    let m := minifyCSS r.out
    (m, bundleFileName m)



end Build

namespace Build

/-! ### The minified-HTML whitespace invariant

`htmlCollapseWS` produces a string without two consecutive whitespace
characters, and every later pass preserves that property. -/

theorem noTwoWS_cons_head {c : Char} {l : List Char}
    (h : noTwoWS l = true)
    (hh : isWS c = false ∨ isWS (l.headD 'x') = false) :
    noTwoWS (c :: l) = true := by
  cases l with
  | nil => rfl
  | cons d t =>
    refine adjOK_cons ?_ h
    simp only [List.headD] at hh
    rcases hh with h1 | h1 <;> simp [h1]

theorem dropWhile_isWS_headD (l : List Char) :
    isWS ((l.dropWhile isWS).headD 'x') = false := by
  induction l with
  | nil => decide
  | cons c t ih =>
    cases hc : isWS c with
    | true => simpa [List.dropWhile_cons, hc] using ih
    | false => simp [List.dropWhile_cons, hc]

theorem htmlCollapseFuel_step (n : Nat) (c : Char) (cs : List Char) :
    htmlCollapseFuel (n + 1) (c :: cs) =
      if isWS c && isWS (cs.headD 'x') then
        ' ' :: htmlCollapseFuel n (cs.dropWhile isWS)
      else c :: htmlCollapseFuel n cs := rfl

theorem htmlCollapseFuel_headD (fuel : Nat) (l : List Char)
    (h : isWS (l.headD 'x') = false) :
    isWS ((htmlCollapseFuel fuel l).headD 'x') = false := by
  cases fuel with
  | zero => cases l <;> exact (by decide : isWS 'x' = false)
  | succ n =>
    cases l with
    | nil => exact (by decide : isWS 'x' = false)
    | cons c cs =>
      simp only [List.headD] at h
      rw [htmlCollapseFuel_step, if_neg (by simp [h])]
      simpa [List.headD] using h

theorem noTwoWS_htmlCollapseFuel (fuel : Nat) :
    ∀ l, noTwoWS (htmlCollapseFuel fuel l) = true := by
  induction fuel with
  | zero => intro l; cases l <;> rfl
  | succ n ih =>
    intro l
    cases l with
    | nil => rfl
    | cons c cs =>
      rw [htmlCollapseFuel_step]
      by_cases hc : (isWS c && isWS (cs.headD 'x')) = true
      · rw [if_pos hc]
        exact noTwoWS_cons_head (ih _)
          (Or.inr (htmlCollapseFuel_headD n _ (dropWhile_isWS_headD cs)))
      · rw [if_neg hc]
        cases hw : isWS c with
        | false => exact noTwoWS_cons_head (ih cs) (Or.inl hw)
        | true =>
          have hcs : isWS (cs.headD 'x') = false := by
            cases hd : isWS (cs.headD 'x') with
            | false => rfl
            | true => exact absurd (by rw [hw, hd]; rfl) hc
          exact noTwoWS_cons_head (ih cs)
            (Or.inr (htmlCollapseFuel_headD n cs hcs))

theorem noTwoWS_htmlCollapseWS (l : List Char) :
    noTwoWS (htmlCollapseWS l) = true :=
  noTwoWS_htmlCollapseFuel l.length l

theorem htmlTrimFuel_nil (fuel : Nat) (b : Bool) :
    htmlTrimFuel fuel b [] = [] := by
  cases fuel <;> rfl

theorem htmlTrimFuel_step (n : Nat) (b : Bool) (c : Char) (cs : List Char) :
    htmlTrimFuel (n + 1) b (c :: cs) =
      if b && isWS c then
        htmlTrimFuel n
          (lineTerm ((((c :: cs).takeWhile isWS).getLast?).getD ' '))
          (cs.dropWhile isWS)
      else
        if isWS c then
          match bestK ((c :: cs).takeWhile isWS)
              ((c :: cs).dropWhile isWS).isEmpty with
          | some k =>
            htmlTrimFuel n
              (lineTerm (((c :: cs).takeWhile isWS).getD (k - 1) ' '))
              (cs.drop (k - 1))
          | none => c :: htmlTrimFuel n (lineTerm c) cs
        else c :: htmlTrimFuel n (lineTerm c) cs := rfl

theorem htmlTrimFuel_cons_nonws (fuel : Nat) (b : Bool) {d : Char}
    (t : List Char) (hd : isWS d = false) :
    htmlTrimFuel (fuel + 1) b (d :: t) =
      d :: htmlTrimFuel fuel (lineTerm d) t := by
  rw [htmlTrimFuel_step, if_neg (by simp [hd]), if_neg (by simp [hd])]

theorem htmlTrimFuel_headD (fuel : Nat) (b : Bool) (l : List Char)
    (h : isWS (l.headD 'x') = false) :
    isWS ((htmlTrimFuel fuel b l).headD 'x') = false := by
  cases fuel with
  | zero => cases l <;> exact (by decide : isWS 'x' = false)
  | succ n =>
    cases l with
    | nil => exact (by decide : isWS 'x' = false)
    | cons d t =>
      simp only [List.headD] at h
      rw [htmlTrimFuel_cons_nonws n b t h]
      simpa [List.headD] using h

theorem noTwoWS_htmlTrimFuel (fuel : Nat) :
    ∀ (b : Bool) (l : List Char), noTwoWS l = true →
      noTwoWS (htmlTrimFuel fuel b l) = true := by
  induction fuel with
  | zero => intro b l _; cases l <;> rfl
  | succ n ih =>
    intro b l h
    cases l with
    | nil => rfl
    | cons c cs =>
      rw [htmlTrimFuel_step]
      by_cases h1 : (b && isWS c) = true
      · rw [if_pos h1]
        exact ih _ _ (adjOK_dropWhile _ (adjOK_tail h))
      · rw [if_neg h1]
        cases h2 : isWS c with
        | true =>
          rw [if_pos rfl]
          cases hbk : bestK ((c :: cs).takeWhile isWS)
              ((c :: cs).dropWhile isWS).isEmpty with
          | some k =>
            exact ih _ _ (adjOK_drop _ (adjOK_tail h))
          | none =>
            cases cs with
            | nil =>
              rw [htmlTrimFuel_nil]
              rfl
            | cons d t =>
              have hd : isWS d = false := by
                have hp := adjOK_pair h
                cases hdd : isWS d with
                | false => rfl
                | true => simp [h2, hdd] at hp
              exact noTwoWS_cons_head (ih _ _ (adjOK_tail h))
                (Or.inr (htmlTrimFuel_headD n _ _ (by simpa [List.headD])))
        | false =>
          rw [if_neg (by simp [h2])]
          exact noTwoWS_cons_head (ih _ _ (adjOK_tail h)) (Or.inl h2)

theorem noTwoWS_htmlDropNewlines :
    ∀ {l : List Char}, noTwoWS l = true →
      noTwoWS (htmlDropNewlines l) = true := by
  intro l
  induction l with
  | nil => intro _; rfl
  | cons c t ih =>
    intro h
    by_cases hc : c = '\n'
    · subst hc
      have he : htmlDropNewlines ('\n' :: t) = htmlDropNewlines t := by
        simp [htmlDropNewlines, List.filter_cons]
      rw [he]
      exact ih (adjOK_tail h)
    · have he : htmlDropNewlines (c :: t) = c :: htmlDropNewlines t := by
        simp [htmlDropNewlines, List.filter_cons, hc]
      rw [he]
      cases hw : isWS c with
      | false => exact noTwoWS_cons_head (ih (adjOK_tail h)) (Or.inl hw)
      | true =>
        cases t with
        | nil => rfl
        | cons d t2 =>
          have hd : isWS d = false := by
            have hp := adjOK_pair h
            cases hdd : isWS d with
            | false => rfl
            | true => simp [hw, hdd] at hp
          have hdn : d ≠ '\n' := by
            intro hx
            rw [hx] at hd
            exact absurd hd (by decide)
          have he2 : htmlDropNewlines (d :: t2) = d :: htmlDropNewlines t2 := by
            simp [htmlDropNewlines, List.filter_cons, hdn]
          refine noTwoWS_cons_head (ih (adjOK_tail h)) (Or.inr ?_)
          show isWS ((htmlDropNewlines (d :: t2)).headD 'x') = false
          rw [he2]
          simpa [List.headD] using hd

theorem dropTrailWS_cons (c : Char) (l : List Char) :
    dropTrailWS (c :: l) =
      if (dropTrailWS l).isEmpty && isWS c then [] else c :: dropTrailWS l :=
  rfl

theorem noTwoWS_dropTrailWS :
    ∀ {l : List Char}, noTwoWS l = true → noTwoWS (dropTrailWS l) = true := by
  intro l
  induction l with
  | nil => intro _; rfl
  | cons c t ih =>
    intro h
    rw [dropTrailWS_cons]
    by_cases hc : ((dropTrailWS t).isEmpty && isWS c) = true
    · rw [if_pos hc]; rfl
    · rw [if_neg hc]
      cases hw : isWS c with
      | false => exact noTwoWS_cons_head (ih (adjOK_tail h)) (Or.inl hw)
      | true =>
        have hne : (dropTrailWS t).isEmpty = false := by
          cases hie : (dropTrailWS t).isEmpty with
          | false => rfl
          | true => exact absurd (by simp [hie, hw]) hc
        cases t with
        | nil => simp [dropTrailWS] at hne
        | cons d t2 =>
          have hd : isWS d = false := by
            have hp := adjOK_pair h
            cases hdd : isWS d with
            | false => rfl
            | true => simp [hw, hdd] at hp
          refine noTwoWS_cons_head (ih (adjOK_tail h)) (Or.inr ?_)
          rw [dropTrailWS_cons]
          by_cases h2 : ((dropTrailWS t2).isEmpty && isWS d) = true
          · rw [dropTrailWS_cons, if_pos h2] at hne
            simp at hne
          · rw [if_neg h2]
            simpa [List.headD] using hd

theorem noTwoWS_jsTrim {l : List Char} (h : noTwoWS l = true) :
    noTwoWS (jsTrim l) = true :=
  noTwoWS_dropTrailWS (adjOK_dropWhile _ h)

end Build

namespace Build

/-- Whether a string still contains a complete HTML comment: a `<!--`
followed later by a `-->`. -/
def containsHTMLComment (l : List Char) : Bool :=
  match splitFirst ['<', '!', '-', '-'] l with
  | some (_, after) => hasSub ['-', '-', '>'] after
  | none => false

end Build

namespace Build

/-! ### Structure of minified CSS

After `minifyCSS`, every whitespace character is a single space, no two
whitespace characters are adjacent, no whitespace touches a symbol, and
the ends are trimmed.  These facts drive the conditional idempotence of
the minifier. -/

/-- Every whitespace character is a plain space. -/
def allWSspace (l : List Char) : Bool :=
  l.all (fun c => !isWS c || c = ' ')

/-- The last character (if any) is not whitespace. -/
def noTrailWS : List Char → Bool
  | [] => true
  | [c] => !isWS c
  | _ :: c :: t => noTrailWS (c :: t)

theorem cssCollapseFuel_step (n : Nat) (c : Char) (cs : List Char) :
    cssCollapseFuel (n + 1) (c :: cs) =
      if isWS c then ' ' :: cssCollapseFuel n (cs.dropWhile isWS)
      else c :: cssCollapseFuel n cs := rfl

theorem cssCollapseFuel_headD (fuel : Nat) (l : List Char)
    (h : isWS (l.headD 'x') = false) :
    isWS ((cssCollapseFuel fuel l).headD 'x') = false := by
  cases fuel with
  | zero => cases l <;> exact (by decide : isWS 'x' = false)
  | succ n =>
    cases l with
    | nil => exact (by decide : isWS 'x' = false)
    | cons c cs =>
      simp only [List.headD] at h
      rw [cssCollapseFuel_step, if_neg (by simp [h])]
      simpa [List.headD] using h

theorem allWSspace_cssCollapseFuel (fuel : Nat) :
    ∀ l, allWSspace (cssCollapseFuel fuel l) = true := by
  induction fuel with
  | zero => intro l; cases l <;> rfl
  | succ n ih =>
    intro l
    cases l with
    | nil => rfl
    | cons c cs =>
      rw [cssCollapseFuel_step]
      by_cases hc : isWS c = true
      · rw [if_pos hc]
        simpa [allWSspace, List.all_cons] using ih (cs.dropWhile isWS)
      · rw [if_neg hc]
        have : allWSspace (cssCollapseFuel n cs) = true := ih cs
        simp only [Bool.not_eq_true] at hc
        simpa [allWSspace, List.all_cons, hc] using this

theorem noTwoWS_cssCollapseFuel (fuel : Nat) :
    ∀ l, noTwoWS (cssCollapseFuel fuel l) = true := by
  induction fuel with
  | zero => intro l; cases l <;> rfl
  | succ n ih =>
    intro l
    cases l with
    | nil => rfl
    | cons c cs =>
      rw [cssCollapseFuel_step]
      by_cases hc : isWS c = true
      · rw [if_pos hc]
        exact noTwoWS_cons_head (ih _)
          (Or.inr (cssCollapseFuel_headD n _ (dropWhile_isWS_headD cs)))
      · rw [if_neg hc]
        simp only [Bool.not_eq_true] at hc
        exact noTwoWS_cons_head (ih cs) (Or.inl hc)

theorem cssTightenFuel_nil (fuel : Nat) : cssTightenFuel fuel [] = [] := by
  cases fuel <;> rfl

theorem cssTightenFuel_step (n : Nat) (c : Char) (cs : List Char) :
    cssTightenFuel (n + 1) (c :: cs) =
      if isSym c then c :: cssTightenFuel n (cs.dropWhile isWS)
      else
        if isWS c then
          match cs.dropWhile isWS with
          | s :: r2 =>
            if isSym s then s :: cssTightenFuel n (r2.dropWhile isWS)
            else c :: cssTightenFuel n cs
          | [] => c :: cssTightenFuel n cs
        else c :: cssTightenFuel n cs := rfl

theorem cssTightenFuel_headD_ws (fuel : Nat) (l : List Char)
    (h : isWS (l.headD 'x') = false) :
    isWS ((cssTightenFuel fuel l).headD 'x') = false := by
  cases fuel with
  | zero => cases l <;> exact (by decide : isWS 'x' = false)
  | succ n =>
    cases l with
    | nil => exact (by decide : isWS 'x' = false)
    | cons c cs =>
      simp only [List.headD] at h
      rw [cssTightenFuel_step]
      by_cases hs : isSym c = true
      · rw [if_pos hs]
        simpa [List.headD] using h
      · rw [if_neg hs, if_neg (by simp [h])]
        simpa [List.headD] using h

theorem cssTightenFuel_headD_sym (fuel : Nat) (l : List Char)
    (hw : isWS (l.headD 'x') = false) (hs : isSym (l.headD 'x') = false) :
    isSym ((cssTightenFuel fuel l).headD 'x') = false := by
  cases fuel with
  | zero => cases l <;> exact (by decide : isSym 'x' = false)
  | succ n =>
    cases l with
    | nil => exact (by decide : isSym 'x' = false)
    | cons c cs =>
      simp only [List.headD] at hw hs
      rw [cssTightenFuel_step, if_neg (by simp [hs]), if_neg (by simp [hw])]
      simpa [List.headD] using hs

end Build

namespace Build

theorem noWsSym_cons_head {c : Char} {l : List Char}
    (h : noWsSym l = true)
    (hh : (isWS c = false ∧ isSym c = false) ∨
          (isWS c = false ∧ isWS (l.headD 'x') = false) ∨
          (isSym (l.headD 'x') = false ∧ isWS (l.headD 'x') = false)) :
    noWsSym (c :: l) = true := by
  cases l with
  | nil => rfl
  | cons d t =>
    refine adjOK_cons ?_ h
    simp only [List.headD] at hh
    rcases hh with ⟨h1, h2⟩ | ⟨h1, h2⟩ | ⟨h1, h2⟩ <;> simp [h1, h2]

theorem dropWhile_eq_self_of_head {cs : List Char}
    (h : isWS (cs.headD 'x') = false) : cs.dropWhile isWS = cs := by
  cases cs with
  | nil => rfl
  | cons d t =>
    simp only [List.headD] at h
    simp [List.dropWhile_cons, h]

theorem noTwoWS_head_tail {c : Char} {cs : List Char}
    (h : noTwoWS (c :: cs) = true) (hc : isWS c = true) :
    isWS (cs.headD 'x') = false := by
  cases cs with
  | nil => decide
  | cons d t =>
    have hp := adjOK_pair h
    cases hd : isWS d with
    | false => simp [List.headD]; exact hd
    | true => simp [hc, hd] at hp

theorem noWsSym_sym_tail {c : Char} {cs : List Char}
    (h : noWsSym (c :: cs) = true) (hc : isSym c = true) :
    isWS (cs.headD 'x') = false := by
  cases cs with
  | nil => decide
  | cons d t =>
    have hp := adjOK_pair h
    cases hd : isWS d with
    | false => simp [List.headD]; exact hd
    | true => simp [hc, hd] at hp

theorem noTwoWS_cssTightenFuel (fuel : Nat) :
    ∀ l, noTwoWS l = true → noTwoWS (cssTightenFuel fuel l) = true := by
  induction fuel with
  | zero => intro l _; cases l <;> rfl
  | succ n ih =>
    intro l h
    cases l with
    | nil => rfl
    | cons c cs =>
      rw [cssTightenFuel_step]
      by_cases hs : isSym c = true
      · rw [if_pos hs]
        exact noTwoWS_cons_head (ih _ (adjOK_dropWhile _ (adjOK_tail h)))
          (Or.inl (isSym_not_isWS hs))
      · rw [if_neg hs]
        by_cases hw : isWS c = true
        · rw [if_pos hw, dropWhile_eq_self_of_head (noTwoWS_head_tail h hw)]
          cases cs with
          | nil =>
            rw [cssTightenFuel_nil]
            rfl
          | cons d t =>
            dsimp only
            have hd : isWS d = false := by
              simpa [List.headD] using noTwoWS_head_tail h hw
            by_cases hds : isSym d = true
            · rw [if_pos hds]
              exact noTwoWS_cons_head
                (ih _ (adjOK_dropWhile _ (adjOK_tail (adjOK_tail h))))
                (Or.inl hd)
            · rw [if_neg hds]
              refine noTwoWS_cons_head (ih _ (adjOK_tail h)) (Or.inr ?_)
              exact cssTightenFuel_headD_ws n _ (by simpa [List.headD] using hd)
        · rw [if_neg hw]
          simp only [Bool.not_eq_true] at hw
          exact noTwoWS_cons_head (ih _ (adjOK_tail h)) (Or.inl hw)

theorem noWsSym_cssTightenFuel (fuel : Nat) :
    ∀ l, noTwoWS l = true → noWsSym (cssTightenFuel fuel l) = true := by
  induction fuel with
  | zero => intro l _; cases l <;> rfl
  | succ n ih =>
    intro l h
    cases l with
    | nil => rfl
    | cons c cs =>
      rw [cssTightenFuel_step]
      by_cases hs : isSym c = true
      · rw [if_pos hs]
        refine noWsSym_cons_head (ih _ (adjOK_dropWhile _ (adjOK_tail h)))
          (Or.inr (Or.inl ⟨isSym_not_isWS hs, ?_⟩))
        exact cssTightenFuel_headD_ws n _ (dropWhile_isWS_headD cs)
      · rw [if_neg hs]
        by_cases hw : isWS c = true
        · rw [if_pos hw, dropWhile_eq_self_of_head (noTwoWS_head_tail h hw)]
          cases cs with
          | nil =>
            rw [cssTightenFuel_nil]
            rfl
          | cons d t =>
            dsimp only
            have hd : isWS d = false := by
              simpa [List.headD] using noTwoWS_head_tail h hw
            by_cases hds : isSym d = true
            · rw [if_pos hds]
              refine noWsSym_cons_head
                (ih _ (adjOK_dropWhile _ (adjOK_tail (adjOK_tail h))))
                (Or.inr (Or.inl ⟨isSym_not_isWS hds, ?_⟩))
              exact cssTightenFuel_headD_ws n _ (dropWhile_isWS_headD t)
            · rw [if_neg hds]
              refine noWsSym_cons_head (ih _ (adjOK_tail h))
                (Or.inr (Or.inr ⟨?_, ?_⟩))
              · exact cssTightenFuel_headD_sym n _
                  (by simpa [List.headD] using hd)
                  (by simpa [List.headD] using (Bool.not_eq_true _).mp hds)
              · exact cssTightenFuel_headD_ws n _
                  (by simpa [List.headD] using hd)
        · rw [if_neg hw]
          simp only [Bool.not_eq_true] at hw hs
          exact noWsSym_cons_head (ih _ (adjOK_tail h)) (Or.inl ⟨hw, hs⟩)

end Build

namespace Build

theorem allWSspace_tail {c : Char} {l : List Char}
    (h : allWSspace (c :: l) = true) : allWSspace l = true := by
  simp only [allWSspace, List.all_cons, Bool.and_eq_true] at h ⊢
  exact h.2

theorem allWSspace_head {c : Char} {l : List Char}
    (h : allWSspace (c :: l) = true) : (!isWS c || c = ' ') = true := by
  simp only [allWSspace, List.all_cons, Bool.and_eq_true] at h
  exact h.1

theorem allWSspace_cons_intro {c : Char} {l : List Char}
    (hc : (!isWS c || c = ' ') = true) (h : allWSspace l = true) :
    allWSspace (c :: l) = true := by
  simp only [allWSspace, List.all_cons, Bool.and_eq_true]
  exact ⟨hc, h⟩

theorem allWSspace_dropWhile (p : Char → Bool) :
    ∀ {l : List Char}, allWSspace l = true →
      allWSspace (l.dropWhile p) = true := by
  intro l
  induction l with
  | nil => intro h; exact h
  | cons c t ih =>
    intro h
    by_cases hp : p c = true
    · rw [List.dropWhile_cons, if_pos hp]
      exact ih (allWSspace_tail h)
    · rw [List.dropWhile_cons, if_neg (by simp [hp])]
      exact h

theorem allWSspace_cssTightenFuel (fuel : Nat) :
    ∀ l, allWSspace l = true → allWSspace (cssTightenFuel fuel l) = true := by
  induction fuel with
  | zero => intro l _; cases l <;> rfl
  | succ n ih =>
    intro l h
    cases l with
    | nil => rfl
    | cons c cs =>
      rw [cssTightenFuel_step]
      by_cases hs : isSym c = true
      · rw [if_pos hs]
        exact allWSspace_cons_intro (allWSspace_head h)
          (ih _ (allWSspace_dropWhile _ (allWSspace_tail h)))
      · rw [if_neg hs]
        by_cases hw : isWS c = true
        · rw [if_pos hw]
          cases hd : cs.dropWhile isWS with
          | nil =>
            dsimp only
            exact allWSspace_cons_intro (allWSspace_head h)
              (ih _ (allWSspace_tail h))
          | cons d t =>
            dsimp only
            have hdt : allWSspace (d :: t) = true :=
              hd ▸ allWSspace_dropWhile _ (allWSspace_tail h)
            by_cases hds : isSym d = true
            · rw [if_pos hds]
              exact allWSspace_cons_intro (allWSspace_head hdt)
                (ih _ (allWSspace_dropWhile _ (allWSspace_tail hdt)))
            · rw [if_neg hds]
              exact allWSspace_cons_intro (allWSspace_head h)
                (ih _ (allWSspace_tail h))
        · rw [if_neg hw]
          exact allWSspace_cons_intro (allWSspace_head h)
            (ih _ (allWSspace_tail h))

theorem cssDropSemisFuel_step (n : Nat) (c : Char) (t : List Char) :
    cssDropSemisFuel (n + 1) (c :: t) =
      if c = ';' && t.headD 'x' = '\x7d' then
        '\x7d' :: cssDropSemisFuel n t.tail
      else c :: cssDropSemisFuel n t := rfl

theorem cssDropSemisFuel_headD_ws (fuel : Nat) (l : List Char)
    (h : isWS (l.headD 'x') = false) :
    isWS ((cssDropSemisFuel fuel l).headD 'x') = false := by
  cases fuel with
  | zero => cases l <;> exact (by decide : isWS 'x' = false)
  | succ n =>
    cases l with
    | nil => exact (by decide : isWS 'x' = false)
    | cons c t =>
      rw [cssDropSemisFuel_step]
      by_cases hc : (c = ';' && t.headD 'x' = '\x7d') = true
      · rw [if_pos hc]
        exact (by decide : isWS '\x7d' = false)
      · rw [if_neg hc]
        simpa [List.headD] using h

theorem cssDropSemisFuel_headD_sym (fuel : Nat) (l : List Char)
    (hs : isSym (l.headD 'x') = false) :
    isSym ((cssDropSemisFuel fuel l).headD 'x') = false := by
  cases fuel with
  | zero => cases l <;> exact (by decide : isSym 'x' = false)
  | succ n =>
    cases l with
    | nil => exact (by decide : isSym 'x' = false)
    | cons c t =>
      rw [cssDropSemisFuel_step]
      by_cases hc : (c = ';' && t.headD 'x' = '\x7d') = true
      · simp only [Bool.and_eq_true, decide_eq_true_eq] at hc
        simp only [List.headD, hc.1] at hs
        exact absurd hs (by decide)
      · rw [if_neg hc]
        simpa [List.headD] using hs

theorem allWSspace_cssDropSemisFuel (fuel : Nat) :
    ∀ l, allWSspace l = true → allWSspace (cssDropSemisFuel fuel l) = true := by
  induction fuel with
  | zero => intro l _; cases l <;> rfl
  | succ n ih =>
    intro l h
    cases l with
    | nil => rfl
    | cons c t =>
      rw [cssDropSemisFuel_step]
      by_cases hc : (c = ';' && t.headD 'x' = '\x7d') = true
      · rw [if_pos hc]
        refine allWSspace_cons_intro (by decide) (ih _ ?_)
        cases t with
        | nil => rfl
        | cons d t2 => exact allWSspace_tail (allWSspace_tail h)
      · rw [if_neg hc]
        exact allWSspace_cons_intro (allWSspace_head h)
          (ih _ (allWSspace_tail h))

theorem noTwoWS_cssDropSemisFuel (fuel : Nat) :
    ∀ l, noTwoWS l = true → noTwoWS (cssDropSemisFuel fuel l) = true := by
  induction fuel with
  | zero => intro l _; cases l <;> rfl
  | succ n ih =>
    intro l h
    cases l with
    | nil => rfl
    | cons c t =>
      rw [cssDropSemisFuel_step]
      by_cases hc : (c = ';' && t.headD 'x' = '\x7d') = true
      · rw [if_pos hc]
        refine noTwoWS_cons_head (ih _ ?_) (Or.inl (by decide))
        cases t with
        | nil => rfl
        | cons d t2 => exact adjOK_tail (adjOK_tail h)
      · rw [if_neg hc]
        cases hw : isWS c with
        | false => exact noTwoWS_cons_head (ih _ (adjOK_tail h)) (Or.inl hw)
        | true =>
          refine noTwoWS_cons_head (ih _ (adjOK_tail h)) (Or.inr ?_)
          exact cssDropSemisFuel_headD_ws n _ (noTwoWS_head_tail h hw)

theorem noWsSym_cssDropSemisFuel (fuel : Nat) :
    ∀ l, noTwoWS l = true → noWsSym l = true →
      noWsSym (cssDropSemisFuel fuel l) = true := by
  induction fuel with
  | zero => intro l _ _; cases l <;> rfl
  | succ n ih =>
    intro l h hsym
    cases l with
    | nil => rfl
    | cons c t =>
      rw [cssDropSemisFuel_step]
      by_cases hc : (c = ';' && t.headD 'x' = '\x7d') = true
      · rw [if_pos hc]
        simp only [Bool.and_eq_true, decide_eq_true_eq] at hc
        cases t with
        | nil => simp [List.headD] at hc
        | cons d t2 =>
          simp only [List.headD] at hc
          obtain ⟨hc1, hc2⟩ := hc
          subst hc1
          subst hc2
          refine noWsSym_cons_head
            (ih _ (adjOK_tail (adjOK_tail h)) (adjOK_tail (adjOK_tail hsym)))
            (Or.inr (Or.inl ⟨by decide, ?_⟩))
          refine cssDropSemisFuel_headD_ws n _ ?_
          exact noWsSym_sym_tail (adjOK_tail hsym) (by decide)
      · rw [if_neg hc]
        by_cases hcs : isSym c = true
        · refine noWsSym_cons_head (ih _ (adjOK_tail h) (adjOK_tail hsym))
            (Or.inr (Or.inl ⟨isSym_not_isWS hcs, ?_⟩))
          exact cssDropSemisFuel_headD_ws n _ (noWsSym_sym_tail hsym hcs)
        · by_cases hcw : isWS c = true
          · refine noWsSym_cons_head (ih _ (adjOK_tail h) (adjOK_tail hsym))
              (Or.inr (Or.inr ⟨?_, ?_⟩))
            · refine cssDropSemisFuel_headD_sym n _ ?_
              cases t with
              | nil => decide
              | cons d t2 =>
                have hp := adjOK_pair hsym
                simp only [List.headD]
                cases hds : isSym d with
                | false => rfl
                | true => simp [hcw, hds] at hp
            · exact cssDropSemisFuel_headD_ws n _ (noTwoWS_head_tail h hcw)
          · simp only [Bool.not_eq_true] at hcs hcw
            exact noWsSym_cons_head (ih _ (adjOK_tail h) (adjOK_tail hsym))
              (Or.inl ⟨hcw, hcs⟩)

end Build

namespace Build

/-! ### Trim lemmas and the identity of a second minification pass -/

theorem dropTrailWS_structure (c : Char) (l : List Char) :
    dropTrailWS (c :: l) = [] ∨ dropTrailWS (c :: l) = c :: dropTrailWS l := by
  rw [dropTrailWS_cons]
  by_cases hc : ((dropTrailWS l).isEmpty && isWS c) = true
  · rw [if_pos hc]; exact Or.inl rfl
  · rw [if_neg hc]; exact Or.inr rfl

theorem adjOK_dropTrailWS {R : Char → Char → Bool} :
    ∀ {l : List Char}, adjOK R l = true → adjOK R (dropTrailWS l) = true := by
  intro l
  induction l with
  | nil => intro _; rfl
  | cons c t ih =>
    intro h
    rcases dropTrailWS_structure c t with he | he
    · rw [he]; rfl
    · rw [he]
      cases t with
      | nil => rfl
      | cons d t2 =>
        rcases dropTrailWS_structure d t2 with he2 | he2
        · rw [he2]; rfl
        · rw [he2]
          rw [he2] at ih
          exact adjOK_cons (adjOK_pair h) (ih (adjOK_tail h))

theorem allWSspace_dropTrailWS :
    ∀ {l : List Char}, allWSspace l = true →
      allWSspace (dropTrailWS l) = true := by
  intro l
  induction l with
  | nil => intro _; rfl
  | cons c t ih =>
    intro h
    rcases dropTrailWS_structure c t with he | he
    · rw [he]; rfl
    · rw [he]
      exact allWSspace_cons_intro (allWSspace_head h) (ih (allWSspace_tail h))

theorem noTrailWS_cons {c : Char} {d : Char} {t : List Char} :
    noTrailWS (c :: d :: t) = noTrailWS (d :: t) := rfl

theorem noTrailWS_dropTrailWS : ∀ (l : List Char),
    noTrailWS (dropTrailWS l) = true := by
  intro l
  induction l with
  | nil => rfl
  | cons c t ih =>
    rw [dropTrailWS_cons]
    by_cases hc : ((dropTrailWS t).isEmpty && isWS c) = true
    · rw [if_pos hc]; rfl
    · rw [if_neg hc]
      cases he : dropTrailWS t with
      | nil =>
        have : isWS c = false := by
          cases hw : isWS c with
          | false => rfl
          | true => exact absurd (by rw [he, hw]; rfl) hc
        simp [noTrailWS, this]
      | cons d t2 =>
        rw [he] at ih
        rw [noTrailWS_cons]
        exact ih

theorem dropTrailWS_headD (l : List Char)
    (h : isWS (l.headD 'x') = false) :
    isWS ((dropTrailWS l).headD 'x') = false := by
  cases l with
  | nil => exact (by decide : isWS 'x' = false)
  | cons c t =>
    rcases dropTrailWS_structure c t with he | he
    · rw [he]; exact (by decide : isWS 'x' = false)
    · rw [he]; simpa [List.headD] using h

theorem jsTrim_headD (l : List Char) :
    isWS ((jsTrim l).headD 'x') = false :=
  dropTrailWS_headD _ (dropWhile_isWS_headD l)

theorem noTrailWS_jsTrim (l : List Char) : noTrailWS (jsTrim l) = true :=
  noTrailWS_dropTrailWS _

/-! Identity lemmas: each pass leaves a string alone when the string
already has the corresponding structure. -/

theorem stripBlockFuel_id (op cl : List Char) :
    ∀ (fuel : Nat) (l : List Char), l.length ≤ fuel →
      hasSub op l = false → stripBlockFuel op cl fuel l = l := by
  intro fuel
  induction fuel with
  | zero =>
    intro l hlen _
    cases l with
    | nil => rfl
    | cons c t => simp at hlen
  | succ n ih =>
    intro l hlen h
    cases l with
    | nil => rfl
    | cons c t =>
      rw [hasSub_cons] at h
      simp only [Bool.or_eq_false_iff] at h
      have hstep : stripBlockFuel op cl (n + 1) (c :: t) =
          if op.isPrefixOf (c :: t) then
            match splitFirst cl ((c :: t).drop op.length) with
            | some (_, after) => stripBlockFuel op cl n after
            | none => c :: stripBlockFuel op cl n t
          else c :: stripBlockFuel op cl n t := rfl
      rw [hstep, if_neg (by simp [h.1])]
      rw [ih t (by simpa using Nat.le_of_succ_le_succ hlen) h.2]

theorem cssCollapseFuel_id :
    ∀ (fuel : Nat) (l : List Char), l.length ≤ fuel →
      allWSspace l = true → noTwoWS l = true →
      cssCollapseFuel fuel l = l := by
  intro fuel
  induction fuel with
  | zero =>
    intro l hlen _ _
    cases l with
    | nil => rfl
    | cons c t => simp at hlen
  | succ n ih =>
    intro l hlen hall h2
    cases l with
    | nil => rfl
    | cons c cs =>
      rw [cssCollapseFuel_step]
      by_cases hw : isWS c = true
      · rw [if_pos hw, dropWhile_eq_self_of_head (noTwoWS_head_tail h2 hw)]
        have hsp : c = ' ' := by
          have := @allWSspace_head c cs hall
          simp [hw] at this
          exact this
        rw [ih cs (by simpa using Nat.le_of_succ_le_succ hlen)
          (allWSspace_tail hall) (adjOK_tail h2), hsp]
      · rw [if_neg hw]
        rw [ih cs (by simpa using Nat.le_of_succ_le_succ hlen)
          (allWSspace_tail hall) (adjOK_tail h2)]

theorem cssTightenFuel_id :
    ∀ (fuel : Nat) (l : List Char), l.length ≤ fuel →
      noWsSym l = true → noTwoWS l = true →
      cssTightenFuel fuel l = l := by
  intro fuel
  induction fuel with
  | zero =>
    intro l hlen _ _
    cases l with
    | nil => rfl
    | cons c t => simp at hlen
  | succ n ih =>
    intro l hlen hsym h2
    cases l with
    | nil => rfl
    | cons c cs =>
      rw [cssTightenFuel_step]
      by_cases hs : isSym c = true
      · rw [if_pos hs, dropWhile_eq_self_of_head (noWsSym_sym_tail hsym hs)]
        rw [ih cs (by simpa using Nat.le_of_succ_le_succ hlen)
          (adjOK_tail hsym) (adjOK_tail h2)]
      · rw [if_neg hs]
        by_cases hw : isWS c = true
        · rw [if_pos hw, dropWhile_eq_self_of_head (noTwoWS_head_tail h2 hw)]
          cases cs with
          | nil => rw [cssTightenFuel_nil]
          | cons d t =>
            dsimp only
            have hds : isSym d = false := by
              have hp := adjOK_pair hsym
              cases hdd : isSym d with
              | false => rfl
              | true => simp [hw, hdd] at hp
            rw [if_neg (by simp [hds])]
            rw [ih (d :: t) (by simpa using Nat.le_of_succ_le_succ hlen)
              (adjOK_tail hsym) (adjOK_tail h2)]
        · rw [if_neg hw]
          rw [ih cs (by simpa using Nat.le_of_succ_le_succ hlen)
            (adjOK_tail hsym) (adjOK_tail h2)]

theorem cssDropSemisFuel_id :
    ∀ (fuel : Nat) (l : List Char), l.length ≤ fuel →
      hasSub [';', '\x7d'] l = false → cssDropSemisFuel fuel l = l := by
  intro fuel
  induction fuel with
  | zero =>
    intro l hlen _
    cases l with
    | nil => rfl
    | cons c t => simp at hlen
  | succ n ih =>
    intro l hlen h
    cases l with
    | nil => rfl
    | cons c t =>
      rw [hasSub_cons] at h
      simp only [Bool.or_eq_false_iff] at h
      rw [cssDropSemisFuel_step]
      have hcond : (c = ';' && t.headD 'x' = '\x7d') = false := by
        cases hc : (c = ';' && t.headD 'x' = '\x7d') with
        | false => rfl
        | true =>
          simp only [Bool.and_eq_true, decide_eq_true_eq] at hc
          obtain ⟨hc1, hc2⟩ := hc
          subst hc1
          cases t with
          | nil => simp [List.headD] at hc2
          | cons d t2 =>
            simp only [List.headD] at hc2
            subst hc2
            have : ([';', '\x7d'] : List Char).isPrefixOf
                (';' :: '\x7d' :: t2) = true := by
              simp [List.isPrefixOf]
            simp [this] at h
      rw [if_neg (by rw [hcond]; simp)]
      rw [ih t (by simpa using Nat.le_of_succ_le_succ hlen) h.2]

theorem dropTrailWS_id : ∀ {l : List Char}, noTrailWS l = true →
    dropTrailWS l = l := by
  intro l
  induction l with
  | nil => intro _; rfl
  | cons c t ih =>
    intro h
    rw [dropTrailWS_cons]
    cases t with
    | nil =>
      have hc : isWS c = false := by simpa [noTrailWS] using h
      rw [if_neg (by simp [dropTrailWS, hc])]
      rfl
    | cons d t2 =>
      rw [noTrailWS_cons] at h
      rw [ih h]
      rw [if_neg (by simp)]

theorem jsTrim_id {l : List Char} (h1 : isWS (l.headD 'x') = false)
    (h2 : noTrailWS l = true) : jsTrim l = l := by
  unfold jsTrim
  rw [dropWhile_eq_self_of_head h1, dropTrailWS_id h2]

end Build

namespace Build

theorem noWsSym_jsTrim {l : List Char} (h : noWsSym l = true) :
    noWsSym (jsTrim l) = true :=
  adjOK_dropTrailWS (adjOK_dropWhile _ h)

theorem allWSspace_jsTrim {l : List Char} (h : allWSspace l = true) :
    allWSspace (jsTrim l) = true :=
  allWSspace_dropTrailWS (allWSspace_dropWhile _ h)

/-- Structure of any `minifyCSS` output: whitespace is single spaces, never
doubled, never adjacent to a symbol, and the ends are trimmed. -/
theorem minifyCSS_structure (css : List Char) :
    allWSspace (minifyCSS css) = true ∧ noTwoWS (minifyCSS css) = true ∧
    noWsSym (minifyCSS css) = true ∧
    isWS ((minifyCSS css).headD 'x') = false ∧
    noTrailWS (minifyCSS css) = true := by
  have hA1 : allWSspace (cssCollapseWS (stripCSSComments css)) = true :=
    allWSspace_cssCollapseFuel _ _
  have h21 : noTwoWS (cssCollapseWS (stripCSSComments css)) = true :=
    noTwoWS_cssCollapseFuel _ _
  have hA2 : allWSspace
      (cssTightenSyms (cssCollapseWS (stripCSSComments css))) = true :=
    allWSspace_cssTightenFuel _ _ hA1
  have h22 : noTwoWS
      (cssTightenSyms (cssCollapseWS (stripCSSComments css))) = true :=
    noTwoWS_cssTightenFuel _ _ h21
  have hS2 : noWsSym
      (cssTightenSyms (cssCollapseWS (stripCSSComments css))) = true :=
    noWsSym_cssTightenFuel _ _ h21
  have hA3 : allWSspace (cssDropSemis
      (cssTightenSyms (cssCollapseWS (stripCSSComments css)))) = true :=
    allWSspace_cssDropSemisFuel _ _ hA2
  have h23 : noTwoWS (cssDropSemis
      (cssTightenSyms (cssCollapseWS (stripCSSComments css)))) = true :=
    noTwoWS_cssDropSemisFuel _ _ h22
  have hS3 : noWsSym (cssDropSemis
      (cssTightenSyms (cssCollapseWS (stripCSSComments css)))) = true :=
    noWsSym_cssDropSemisFuel _ _ h22 hS2
  exact ⟨allWSspace_jsTrim hA3, noTwoWS_jsTrim h23, noWsSym_jsTrim hS3,
    jsTrim_headD _, noTrailWS_jsTrim _⟩

end Build

namespace Build

/-- **C5** (amended).  The claim that the minifier is idempotent on every
input is false — see the counterexample theorem: the trailing-semicolon
pass can leave a fresh `;}` (from `;;}`), and comment fragments can
recombine into a new comment.  The amended claim holds: `minifyCSS` is
idempotent on every input whose minified form contains neither `/*` nor
`;}` — in particular rerunning the bundle step on its own minified output
leaves content and hash filename unchanged for such inputs. -/
theorem C5_idempotence_amended : ∀ css : List Char,
    hasSub ['/', '*'] (minifyCSS css) = false →
    hasSub [';', '\x7d'] (minifyCSS css) = false →
    minifyCSS (minifyCSS css) = minifyCSS css := by
  intro css h1 h2
  obtain ⟨hall, h2ws, hsym, hhead, htrail⟩ := minifyCSS_structure css
  show jsTrim (cssDropSemis (cssTightenSyms (cssCollapseWS
    (stripCSSComments (minifyCSS css))))) = minifyCSS css
  rw [show stripCSSComments (minifyCSS css) = minifyCSS css from
    stripBlockFuel_id _ _ _ _ (Nat.le_refl _) h1]
  rw [show cssCollapseWS (minifyCSS css) = minifyCSS css from
    cssCollapseFuel_id _ _ (Nat.le_refl _) hall h2ws]
  rw [show cssTightenSyms (minifyCSS css) = minifyCSS css from
    cssTightenFuel_id _ _ (Nat.le_refl _) hsym h2ws]
  rw [show cssDropSemis (minifyCSS css) = minifyCSS css from
    cssDropSemisFuel_id _ _ (Nat.le_refl _) h2]
  exact jsTrim_id hhead htrail

/-- **C5** counterexample: on `;;}` the minifier is not idempotent — the
first pass yields `;}` (the global `;}`-replacement resumes after each
match), and a second pass reduces that to `}`. -/
theorem C5_counterexample :
    minifyCSS (minifyCSS (';' :: ';' :: '\x7d' :: [])) ≠
      minifyCSS (';' :: ';' :: '\x7d' :: []) := by decide

/-- **C5** witness: a concrete input satisfying the amended hypotheses. -/
theorem C5_witness :
    minifyCSS (minifyCSS ('a' :: ' ' :: '\x7b' :: 'b' :: ':' :: 'c' :: ';' ::
        'x' :: '\x7d' :: [])) =
      minifyCSS ('a' :: ' ' :: '\x7b' :: 'b' :: ':' :: 'c' :: ';' ::
        'x' :: '\x7d' :: []) :=
  C5_idempotence_amended _ (by decide) (by decide)

/-- **C7** (amended): for every HTML input string the minified output
contains no two consecutive whitespace characters.  The original claim's
"contains no HTML comments" half is false — see the counterexample
theorem: comment removal and newline removal can reassemble a complete
comment from fragments that were not a comment in the input. -/
theorem C7_no_double_whitespace : ∀ html : List Char,
    noTwoWS (minifyHTML html) = true := fun _ =>
  noTwoWS_jsTrim (noTwoWS_htmlDropNewlines
    (noTwoWS_htmlTrimFuel _ _ _ (noTwoWS_htmlCollapseWS _)))

/-- **C7** counterexample: minifying `<!` + newline + `--x-->` (which
contains no comment) yields `<!--x-->`, which contains an HTML comment,
refuting "the minified output contains no HTML comments" as stated. -/
theorem C7_counterexample :
    containsHTMLComment (minifyHTML
      ('<' :: '!' :: '\n' :: '-' :: '-' :: 'x' :: '-' :: '-' :: '>' :: [])) =
      true := by decide

end Build

namespace Build

/-! ### List-driven placeholder substitution (C2)

The interesting inputs are "plain" content values and template text:
no curly braces (so marker occurrences are exactly where the markers
stand) and no dollars (so `String.replace` inserts the value verbatim). -/

def braceFree (l : List Char) : Bool :=
  l.all (fun c => c ≠ '\x7b' && c ≠ '\x7d')

def dollarFree (l : List Char) : Bool :=
  l.all (fun c => c ≠ '$')

def plainText (l : List Char) : Bool := braceFree l && dollarFree l

theorem braceFree_append {a b : List Char} :
    braceFree (a ++ b) = (braceFree a && braceFree b) := by
  simp [braceFree, List.all_append]

theorem getSubstFuel_plain (pat b a : List Char) :
    ∀ (fuel : Nat) (v : List Char), v.length ≤ fuel →
      dollarFree v = true → getSubstFuel pat b a fuel v = v := by
  intro fuel
  induction fuel with
  | zero =>
    intro v hlen _
    cases v with
    | nil => rfl
    | cons c t => simp at hlen
  | succ n ih =>
    intro v hlen hd
    cases v with
    | nil => rfl
    | cons c t =>
      have hc : ¬ c = '$' := by
        simp only [dollarFree, List.all_cons, Bool.and_eq_true,
          decide_eq_true_eq] at hd
        exact hd.1
      simp only [getSubstFuel]
      rw [if_neg hc]
      rw [ih t (by simpa using Nat.le_of_succ_le_succ hlen)
        (by simp only [dollarFree, List.all_cons, Bool.and_eq_true] at hd
            exact hd.2)]

theorem getSubst_plain {v pat b a : List Char} (h : dollarFree v = true) :
    getSubst v pat b a = v :=
  getSubstFuel_plain pat b a v.length v (Nat.le_refl _) h

theorem isPrefixOf_append_self (pat s : List Char) :
    pat.isPrefixOf (pat ++ s) = true := by
  induction pat with
  | nil => simp [List.isPrefixOf]
  | cons p pt ih => simp [List.isPrefixOf, ih]

theorem jsReplaceFirst_head {pat s v : List Char} (hp : pat ≠ [])
    (hv : dollarFree v = true) :
    jsReplaceFirst (pat ++ s) pat v = v ++ s := by
  cases pat with
  | nil => exact absurd rfl hp
  | cons p pt =>
    have hsp : splitFirst (p :: pt) ((p :: pt) ++ s) = some ([], s) := by
      have := isPrefixOf_append_self (p :: pt) s
      simp only [List.cons_append, splitFirst]
      rw [if_pos (by simpa using this)]
      simp [List.drop_left ((p :: pt)) s]
    unfold jsReplaceFirst
    rw [show ((p :: pt) ++ s : List Char) = p :: (pt ++ s) from rfl] at hsp ⊢
    rw [hsp]
    dsimp only
    rw [getSubst_plain hv]
    simp

theorem splitFirst_append_braceFree {pat : List Char} (a s : List Char)
    (hp : pat.headD 'x' = '\x7b') (ha : braceFree a = true) :
    splitFirst pat (a ++ s) =
      (splitFirst pat s).map (fun pr => (a ++ pr.1, pr.2)) := by
  induction a with
  | nil =>
    simp only [List.nil_append]
    cases h : splitFirst pat s with
    | none => simp
    | some pr => simp
  | cons c a' ih =>
    have hca : (c ≠ '\x7b' && c ≠ '\x7d') = true ∧ braceFree a' = true := by
      simp only [braceFree, List.all_cons, Bool.and_eq_true] at ha
      constructor
      · simp [ha.1]
      · exact ha.2
    have hpre : pat.isPrefixOf (c :: (a' ++ s)) = false := by
      cases pat with
      | nil => simp [List.headD] at hp
      | cons p pt =>
        simp only [List.headD] at hp
        subst hp
        simp only [List.isPrefixOf, Bool.and_eq_true, beq_iff_eq]
        simp only [Bool.and_eq_true, decide_eq_true_eq] at hca
        cases hpc : ('\x7b' == c : Bool) with
        | false => rfl
        | true =>
          have : ('\x7b' : Char) = c := by simpa using hpc
          exact absurd this.symm hca.1.1
    rw [show ((c :: a') ++ s : List Char) = c :: (a' ++ s) from rfl]
    simp only [splitFirst]
    rw [if_neg (by simp [hpre])]
    rw [ih hca.2]
    cases splitFirst pat s with
    | none => rfl
    | some pr => rfl

theorem splitFirst_none_of_braceFree {pat s : List Char}
    (hp : pat.headD 'x' = '\x7b') (hs : braceFree s = true) :
    splitFirst pat s = none := by
  have := splitFirst_append_braceFree s [] hp hs
  simp only [List.append_nil] at this
  rw [this]
  cases pat with
  | nil => simp [List.headD] at hp
  | cons p pt =>
    have : splitFirst (p :: pt) ([] : List Char) = none := by
      simp [splitFirst, List.isPrefixOf]
    rw [this]
    rfl

theorem jsReplaceFirst_append {pat a s v : List Char}
    (hp : pat.headD 'x' = '\x7b') (ha : braceFree a = true)
    (hv : dollarFree v = true) :
    jsReplaceFirst (a ++ s) pat v = a ++ jsReplaceFirst s pat v := by
  unfold jsReplaceFirst
  rw [splitFirst_append_braceFree a s hp ha]
  cases h : splitFirst pat s with
  | none => simp
  | some pr =>
    obtain ⟨b2, a2⟩ := pr
    simp [getSubst_plain hv, List.append_assoc]

theorem jsReplaceFirst_braceFree {pat s v : List Char}
    (hp : pat.headD 'x' = '\x7b') (hs : braceFree s = true) :
    jsReplaceFirst s pat v = s := by
  unfold jsReplaceFirst
  rw [splitFirst_none_of_braceFree hp hs]

end Build

namespace Build

/-- One repeated nav entry of the header template: arbitrary brace-free
text around one `LABEL` and one `DESTINATION` marker. -/
def navBlock (pre mid post : List Char) : List Char :=
  pre ++ labelMarker ++ mid ++ destMarker ++ post

def navBlocks (pre mid post : List Char) : Nat → List Char
  | 0 => []
  | k + 1 => navBlock pre mid post ++ navBlocks pre mid post k

/-- One repeated invoice-amount entry: brace-free text around one
`AMOUNT` marker. -/
def amountBlock (pre post : List Char) : List Char :=
  pre ++ amountMarker ++ post

def amountBlocks (pre post : List Char) : Nat → List Char
  | 0 => []
  | k + 1 => amountBlock pre post ++ amountBlocks pre post k

theorem plainText_brace {l : List Char} (h : plainText l = true) :
    braceFree l = true := by
  simp only [plainText, Bool.and_eq_true] at h
  exact h.1

theorem plainText_dollar {l : List Char} (h : plainText l = true) :
    dollarFree l = true := by
  simp only [plainText, Bool.and_eq_true] at h
  exact h.2

theorem injectNav_append {items : List (List Char × List Char)} :
    ∀ {a s : List Char}, braceFree a = true →
      (∀ it ∈ items, plainText it.1 = true ∧ plainText it.2 = true) →
      injectNav items (a ++ s) = a ++ injectNav items s := by
  induction items with
  | nil => intro a s _ _; rfl
  | cons it rest ih =>
    intro a s ha hitems
    have hit := hitems it (List.mem_cons_self it rest)
    have hrest : ∀ x ∈ rest, plainText x.1 = true ∧ plainText x.2 = true :=
      fun x hx => hitems x (List.mem_cons_of_mem it hx)
    show injectNav rest
      (jsReplaceFirst (jsReplaceFirst (a ++ s) labelMarker it.1)
        destMarker it.2) = _
    rw [jsReplaceFirst_append (by decide) ha (plainText_dollar hit.1)]
    rw [jsReplaceFirst_append (by decide) ha (plainText_dollar hit.2)]
    exact ih ha hrest

theorem injectNav_braceFree {items : List (List Char × List Char)}
    {s : List Char} (hs : braceFree s = true) : injectNav items s = s := by
  induction items with
  | nil => rfl
  | cons it rest ih =>
    show injectNav rest
      (jsReplaceFirst (jsReplaceFirst s labelMarker it.1)
        destMarker it.2) = s
    rw [jsReplaceFirst_braceFree (by decide) hs,
      jsReplaceFirst_braceFree (by decide) hs]
    exact ih

theorem injectAmounts_append {amounts : List (List Char)} :
    ∀ {a s : List Char}, braceFree a = true →
      (∀ x ∈ amounts, plainText x = true) →
      injectAmounts amounts (a ++ s) = a ++ injectAmounts amounts s := by
  induction amounts with
  | nil => intro a s _ _; rfl
  | cons x rest ih =>
    intro a s ha hx
    show injectAmounts rest (jsReplaceFirst (a ++ s) amountMarker x) = _
    rw [jsReplaceFirst_append (by decide) ha
      (plainText_dollar (hx x (List.mem_cons_self x rest)))]
    exact ih ha (fun y hy => hx y (List.mem_cons_of_mem x hy))

theorem injectAmounts_braceFree {amounts : List (List Char)}
    {s : List Char} (hs : braceFree s = true) :
    injectAmounts amounts s = s := by
  induction amounts with
  | nil => rfl
  | cons x rest ih =>
    show injectAmounts rest (jsReplaceFirst s amountMarker x) = s
    rw [jsReplaceFirst_braceFree (by decide) hs]
    exact ih

end Build

namespace Build

theorem navStep {pre mid post R lab lnk : List Char}
    (hpre : braceFree pre = true) (hmid : braceFree mid = true)
    (hlab : plainText lab = true) (hlnk : plainText lnk = true) :
    jsReplaceFirst
      (jsReplaceFirst (navBlock pre mid post ++ R) labelMarker lab)
      destMarker lnk =
      (pre ++ lab ++ mid ++ lnk ++ post) ++ R := by
  have h1 : navBlock pre mid post ++ R =
      pre ++ (labelMarker ++ (mid ++ (destMarker ++ (post ++ R)))) := by
    simp [navBlock, List.append_assoc]
  rw [h1]
  rw [jsReplaceFirst_append (by decide) hpre (plainText_dollar hlab)]
  rw [jsReplaceFirst_head (by decide) (plainText_dollar hlab)]
  rw [jsReplaceFirst_append (by decide) hpre (plainText_dollar hlnk)]
  rw [jsReplaceFirst_append (by decide) (plainText_brace hlab)
    (plainText_dollar hlnk)]
  rw [jsReplaceFirst_append (by decide) hmid (plainText_dollar hlnk)]
  rw [jsReplaceFirst_head (by decide) (plainText_dollar hlnk)]
  simp [List.append_assoc]

theorem amountStep {pre post R v : List Char}
    (hpre : braceFree pre = true) (hv : plainText v = true) :
    jsReplaceFirst (amountBlock pre post ++ R) amountMarker v =
      (pre ++ v ++ post) ++ R := by
  have h1 : amountBlock pre post ++ R =
      pre ++ (amountMarker ++ (post ++ R)) := by
    simp [amountBlock, List.append_assoc]
  rw [h1]
  rw [jsReplaceFirst_append (by decide) hpre (plainText_dollar hv)]
  rw [jsReplaceFirst_head (by decide) (plainText_dollar hv)]
  simp [List.append_assoc]

theorem injectNav_blocks : ∀ (items : List (List Char × List Char)) (k : Nat)
    {pre mid post : List Char},
    braceFree pre = true → braceFree mid = true → braceFree post = true →
    (∀ it ∈ items, plainText it.1 = true ∧ plainText it.2 = true) →
    injectNav items (navBlocks pre mid post k) =
      ((items.take k).map
        (fun it => pre ++ it.1 ++ mid ++ it.2 ++ post)).join ++
      navBlocks pre mid post (k - items.length) := by
  intro items
  induction items with
  | nil =>
    intro k pre mid post _ _ _ _
    show navBlocks pre mid post k = _
    simp
  | cons it rest ih =>
    intro k pre mid post hpre hmid hpost hitems
    have hit := hitems it (List.mem_cons_self it rest)
    have hrest : ∀ x ∈ rest, plainText x.1 = true ∧ plainText x.2 = true :=
      fun x hx => hitems x (List.mem_cons_of_mem it hx)
    cases k with
    | zero =>
      show injectNav rest
        (jsReplaceFirst (jsReplaceFirst ([] : List Char) labelMarker it.1)
          destMarker it.2) = _
      rw [@jsReplaceFirst_braceFree labelMarker ([] : List Char) it.1
          (by decide) (by decide),
        @jsReplaceFirst_braceFree destMarker ([] : List Char) it.2
          (by decide) (by decide),
        injectNav_braceFree (by decide)]
      simp [navBlocks]
    | succ k' =>
      show injectNav rest
        (jsReplaceFirst (jsReplaceFirst
          (navBlock pre mid post ++ navBlocks pre mid post k')
          labelMarker it.1) destMarker it.2) = _
      rw [navStep hpre hmid hit.1 hit.2]
      rw [injectNav_append (by
        simp [braceFree_append, hpre, hmid, hpost, plainText_brace hit.1,
          plainText_brace hit.2]) hrest]
      rw [ih k' hpre hmid hpost hrest]
      simp [Nat.succ_sub_succ, List.append_assoc]

theorem injectAmounts_blocks : ∀ (amounts : List (List Char)) (k : Nat)
    {pre post : List Char},
    braceFree pre = true → braceFree post = true →
    (∀ x ∈ amounts, plainText x = true) →
    injectAmounts amounts (amountBlocks pre post k) =
      ((amounts.take k).map (fun x => pre ++ x ++ post)).join ++
      amountBlocks pre post (k - amounts.length) := by
  intro amounts
  induction amounts with
  | nil =>
    intro k pre post _ _ _
    show amountBlocks pre post k = _
    simp
  | cons x rest ih =>
    intro k pre post hpre hpost hxs
    have hx := hxs x (List.mem_cons_self x rest)
    have hrest : ∀ y ∈ rest, plainText y = true :=
      fun y hy => hxs y (List.mem_cons_of_mem x hy)
    cases k with
    | zero =>
      show injectAmounts rest
        (jsReplaceFirst ([] : List Char) amountMarker x) = _
      rw [@jsReplaceFirst_braceFree amountMarker ([] : List Char) x
          (by decide) (by decide),
        injectAmounts_braceFree (by decide)]
      simp [amountBlocks]
    | succ k' =>
      show injectAmounts rest
        (jsReplaceFirst (amountBlock pre post ++ amountBlocks pre post k')
          amountMarker x) = _
      rw [amountStep hpre hx]
      rw [injectAmounts_append (by
        simp [braceFree_append, hpre, hpost, plainText_brace hx]) hrest]
      rw [ih k' hpre hpost hrest]
      simp [Nat.succ_sub_succ, List.append_assoc]

end Build

namespace Build

/-- **C2**.  For list-valued content fields (header nav entries, invoice
amounts) injection performs one first-occurrence substitution per list
entry, consuming entries in list order against the repeated marker
occurrences of the template: with `k` marker blocks, the first
`min(length, k)` entries are substituted in order, excess entries are
dropped (their replacements find no marker and do nothing), and with fewer
entries than blocks the leftover marker blocks survive unreplaced; when
the counts match, the result is exactly the substituted entries in input
order with no markers left. -/
theorem C2_list_driven_substitution :
    (∀ (items : List (List Char × List Char)) (k : Nat)
        (pre mid post : List Char),
        braceFree pre = true → braceFree mid = true → braceFree post = true →
        (∀ it ∈ items, plainText it.1 = true ∧ plainText it.2 = true) →
        injectNav items (navBlocks pre mid post k) =
          ((items.take k).map
            (fun it => pre ++ it.1 ++ mid ++ it.2 ++ post)).join ++
          navBlocks pre mid post (k - items.length)) ∧
    (∀ (amounts : List (List Char)) (k : Nat) (pre post : List Char),
        braceFree pre = true → braceFree post = true →
        (∀ x ∈ amounts, plainText x = true) →
        injectAmounts amounts (amountBlocks pre post k) =
          ((amounts.take k).map (fun x => pre ++ x ++ post)).join ++
          amountBlocks pre post (k - amounts.length)) :=
  ⟨fun items k _ _ _ => injectNav_blocks items k,
   fun amounts k _ _ => injectAmounts_blocks amounts k⟩

/-- **C2** witness: three nav items against three label/link marker pairs
produce the three substituted entries in input order with zero unresolved
markers. -/
theorem C2_witness :
    injectNav
      [("Home".toList, "/".toList), ("About".toList, "/about.html".toList),
       ("Contact".toList, "/contact.html".toList)]
      (navBlocks "<li>".toList " → ".toList "</li>".toList 3) =
      ("<li>Home → /</li><li>About → /about.html</li>" ++
       "<li>Contact → /contact.html</li>").toList :=
  (C2_list_driven_substitution.1
    [("Home".toList, "/".toList), ("About".toList, "/about.html".toList),
     ("Contact".toList, "/contact.html".toList)]
    3 "<li>".toList " → ".toList "</li>".toList
    (by decide) (by decide) (by decide) (by decide)).trans (by decide)

end Build

namespace Build

/-- Build step 4 tail for one page: after the marker substitutions the
composed page has `/public/` URLs rewritten and is then minified and
written (lines 338-342). -/
def writtenPage (html : List Char) : List Char :=
  minifyHTML (stripPublic html)

/-- **C6** (code bug in the source).  Placeholder substitution is not
literal: `String.replace` interprets `$`-sequences in the replacement
string, so a JSON content value is not always inserted verbatim.  With
hero title `$&` the marker reproduces itself — the written text is
`<h1>{{TITLE}}</h1>`, not the verbatim `<h1>$&</h1>` required by the
spec's "only literal placeholder substitution". -/
theorem C6_substitution_not_literal :
    injectHero ("<h1>\x7b\x7bTITLE\x7d\x7d</h1>").toList
        "$&".toList "d".toList "c".toList =
      ("<h1>\x7b\x7bTITLE\x7d\x7d</h1>").toList ∧
    injectHero ("<h1>\x7b\x7bTITLE\x7d\x7d</h1>").toList
        "$&".toList "d".toList "c".toList ≠
      "<h1>$&</h1>".toList := by decide

/-- **C1** (code bug in the source).  The `return` that is meant to "skip
external" links exits the whole per-file `forEach` callback, so after the
first `http`/`//` link nothing further in that file is validated: a page
whose external link precedes `href="/missing.html"` produces no warning
although `missing.html` is missing.  Without the preceding external link
the broken link is flagged; `https://example.com` and fragment-only
`#section` links are themselves never flagged (the claim's positive
examples). -/
theorem C1_validator_return_bug :
    fileWarnings ["index.html".toList]
        "<a href=\"https://example.com\"><a href=\"/missing.html\">".toList
      = [] ∧
    fileWarnings ["index.html".toList]
        "<a href=\"/missing.html\"><a href=\"#section\">".toList
      = ["/missing.html".toList] ∧
    fileWarnings ["index.html".toList]
        "<a href=\"https://example.com\"><a href=\"#section\">".toList
      = [] ∧
    fileWarnings ["index.html".toList]
        "<a href=\"/index.html?q=1#top\"><img src=\"/missing.png\">".toList
      = ["/missing.png".toList] := by decide

/-! ### `/public/` rewriting: what survives (C10) -/

/-- `public/` — the marker without its leading slash. -/
def pubSeg : List Char := ['p', 'u', 'b', 'l', 'i', 'c', '/']

/-- `/public/public/` — two overlapping occurrences. -/
def pub2Marker : List Char := pubMarker ++ pubSeg

theorem stripPublicFuel_step (fuel : Nat) (c : Char) (rest : List Char) :
    stripPublicFuel (fuel + 1) (c :: rest) =
      if pubMarker.isPrefixOf (c :: rest) then
        '/' :: stripPublicFuel fuel ((c :: rest).drop pubMarker.length)
      else c :: stripPublicFuel fuel rest := rfl

theorem stripSteps {fuel : Nat} {t out : List Char} {c : Char}
    (hc : c ≠ '/') (h : stripPublicFuel fuel t = c :: out) :
    ∃ fuel' t', t = c :: t' ∧ stripPublicFuel fuel' t' = out := by
  cases fuel with
  | zero => cases t <;> simp [stripPublicFuel] at h
  | succ n =>
    cases t with
    | nil => simp [stripPublicFuel] at h
    | cons d rest =>
      rw [stripPublicFuel_step] at h
      by_cases hp : pubMarker.isPrefixOf (d :: rest) = true
      · rw [if_pos hp] at h
        simp only [List.cons.injEq] at h
        exact absurd h.1.symm hc
      · rw [if_neg (by simp [hp])] at h
        simp only [List.cons.injEq] at h
        exact ⟨n, rest, by rw [h.1], h.2⟩

theorem stripHeadSlash {fuel : Nat} {t out : List Char}
    (h : stripPublicFuel fuel t = '/' :: out) : t.headD 'x' = '/' := by
  cases fuel with
  | zero => cases t <;> simp [stripPublicFuel] at h
  | succ n =>
    cases t with
    | nil => simp [stripPublicFuel] at h
    | cons d rest =>
      rw [stripPublicFuel_step] at h
      by_cases hp : pubMarker.isPrefixOf (d :: rest) = true
      · have hd : d = '/' := by
          cases hdd : ('/' == d : Bool) with
          | true =>
            have h2 : ('/' : Char) = d := by simpa using hdd
            exact h2.symm
          | false =>
            rw [show pubMarker = '/' :: ('p' :: 'u' :: 'b' :: 'l' :: 'i' ::
              'c' :: '/' :: []) from rfl] at hp
            simp only [List.isPrefixOf, Bool.and_eq_true] at hp
            rw [hdd] at hp
            simp at hp
        simp [List.headD, hd]
      · rw [if_neg (by simp [hp])] at h
        simp only [List.cons.injEq] at h
        simp [List.headD, h.1]

theorem strip_transfer : ∀ (pp : List Char),
    (∀ c ∈ pp.dropLast, c ≠ '/') → pp.getLast? = some '/' →
    ∀ (fuel : Nat) (t : List Char),
      pp.isPrefixOf (stripPublicFuel fuel t) = true →
      pp.isPrefixOf t = true := by
  intro pp
  induction pp with
  | nil => intro _ _ fuel t _; simp [List.isPrefixOf]
  | cons c pp' ih =>
    intro hd hl fuel t h
    cases hout : stripPublicFuel fuel t with
    | nil => rw [hout] at h; simp [List.isPrefixOf] at h
    | cons e out =>
      rw [hout] at h
      simp only [List.isPrefixOf, Bool.and_eq_true, beq_iff_eq] at h
      obtain ⟨hce, hpp⟩ := h
      subst hce
      cases pp' with
      | nil =>
        have hcs : c = '/' := by
          simpa [List.getLast?] using hl
        subst hcs
        have := stripHeadSlash hout
        cases t with
        | nil => simp [List.headD] at this
        | cons d rest =>
          simp only [List.headD] at this
          simp [List.isPrefixOf, this]
      | cons c2 pp2 =>
        have hc : c ≠ '/' := by
          apply hd
          simp [List.dropLast]
        obtain ⟨fuel', t', ht, hout'⟩ := stripSteps hc hout
        subst ht
        have hl' : (c2 :: pp2).getLast? = some '/' := by
          simpa [List.getLast?] using hl
        have hd' : ∀ x ∈ (c2 :: pp2).dropLast, x ≠ '/' := by
          intro x hx
          apply hd
          simp only [List.dropLast]
          exact List.mem_cons_of_mem c hx
        have := ih hd' hl' fuel' t' (by rw [hout']; exact hpp)
        simp [List.isPrefixOf, this]

theorem isPrefixOf_append_drop {p1 : List Char} :
    ∀ {p2 l : List Char}, p1.isPrefixOf l = true →
      p2.isPrefixOf (l.drop p1.length) = true →
      (p1 ++ p2).isPrefixOf l = true := by
  induction p1 with
  | nil => intro p2 l _ h2; simpa using h2
  | cons a p1' ih =>
    intro p2 l h1 h2
    cases l with
    | nil => simp [List.isPrefixOf] at h1
    | cons b l' =>
      simp only [List.isPrefixOf, Bool.and_eq_true] at h1
      simp only [List.length_cons, List.drop_succ_cons] at h2
      simp only [List.cons_append, List.isPrefixOf, Bool.and_eq_true]
      exact ⟨h1.1, ih h1.2 h2⟩

theorem hasSub_drop {pat l : List Char} (n : Nat)
    (h : hasSub pat l = false) : hasSub pat (l.drop n) = false := by
  induction n generalizing l with
  | zero => simpa using h
  | succ m ih =>
    cases l with
    | nil => simpa using h
    | cons c rest =>
      rw [hasSub_cons] at h
      simp only [Bool.or_eq_false_iff] at h
      simpa using ih h.2

end Build

namespace Build

theorem stripPublicFuel_no_pub : ∀ (fuel : Nat) (l : List Char),
    l.length ≤ fuel → hasSub pub2Marker l = false →
    hasSub pubMarker (stripPublicFuel fuel l) = false := by
  intro fuel
  induction fuel with
  | zero =>
    intro l hlen _
    cases l with
    | nil => decide
    | cons c t => simp at hlen
  | succ n ih =>
    intro l hlen h
    cases l with
    | nil =>
      simp only [stripPublicFuel]
      decide
    | cons c rest =>
      rw [stripPublicFuel_step]
      by_cases hp : pubMarker.isPrefixOf (c :: rest) = true
      · rw [if_pos hp]
        rw [hasSub_cons]
        have hX : hasSub pubMarker
            (stripPublicFuel n ((c :: rest).drop pubMarker.length)) = false := by
          apply ih
          · have hpl : pubMarker.length = 8 := by decide
            simp only [List.length_drop, List.length_cons, hpl]
            simp only [List.length_cons] at hlen
            omega
          · exact hasSub_drop _ h
        rw [hX]
        cases hfirst : pubMarker.isPrefixOf
            ('/' :: stripPublicFuel n ((c :: rest).drop pubMarker.length)) with
        | false => simp
        | true =>
          exfalso
          have hseg : pubSeg.isPrefixOf
              (stripPublicFuel n ((c :: rest).drop pubMarker.length)) = true := by
            rw [show pubMarker = '/' :: pubSeg from rfl] at hfirst
            simpa [List.isPrefixOf] using hfirst
          have hseg' : pubSeg.isPrefixOf
              ((c :: rest).drop pubMarker.length) = true :=
            strip_transfer pubSeg (by decide) (by decide) n _ hseg
          have hpre2 : pub2Marker.isPrefixOf (c :: rest) = true :=
            isPrefixOf_append_drop hp hseg'
          rw [hasSub_cons] at h
          simp [hpre2] at h
      · rw [if_neg (by simp [hp])]
        rw [hasSub_cons]
        rw [hasSub_cons] at h
        simp only [Bool.or_eq_false_iff] at h
        have hrest : hasSub pubMarker (stripPublicFuel n rest) = false := by
          apply ih
          · simp only [List.length_cons] at hlen
            omega
          · exact h.2
        rw [hrest]
        cases hfirst : pubMarker.isPrefixOf
            (c :: stripPublicFuel n rest) with
        | false => simp
        | true =>
          exfalso
          rw [show pubMarker = '/' :: pubSeg from rfl] at hfirst
          simp only [List.isPrefixOf, Bool.and_eq_true, beq_iff_eq] at hfirst
          obtain ⟨hc, hseg⟩ := hfirst
          have hseg' : pubSeg.isPrefixOf rest = true :=
            strip_transfer pubSeg (by decide) (by decide) n rest hseg
          apply hp
          rw [show pubMarker = '/' :: pubSeg from rfl]
          simp [List.isPrefixOf, ← hc, hseg']

/-- **C10** (amended).  The global `/public/` → `/` rewrite replaces
non-overlapping occurrences left to right, so on any page whose HTML does
not contain the overlapping pattern `/public/public/` no occurrence of
`/public/` survives the rewrite.  The original universal claim is false —
see the counterexample: in `/public/public/` the second (overlapping)
occurrence survives as `/public/` in the written output (and minification
can in principle recombine further occurrences). -/
theorem C10_public_rewrite_amended : ∀ html : List Char,
    hasSub pub2Marker html = false →
    hasSub pubMarker (stripPublic html) = false := fun html h =>
  stripPublicFuel_no_pub html.length html (Nat.le_refl _) h

/-- **C10** counterexample: the page text `/public/public/x.png` still
contains `/public/` in the written (rewritten and minified) output. -/
theorem C10_counterexample :
    hasSub pubMarker (writtenPage "/public/public/x.png".toList) = true := by
  decide

/-- **C10** witness: a normal asset URL is fully rewritten. -/
theorem C10_witness :
    hasSub pubMarker
      (stripPublic "<img src=\"/public/img/logo.png\">".toList) = false :=
  C10_public_rewrite_amended _ (by decide)

end Build

namespace Build

theorem foldl_seen (fs : FS) (p : List Char) (fuel : Nat)
    (hIH : ∀ q sn, (inlineFuel fuel fs q sn).map InlineRes.seen =
      dfsFuel fuel fs q sn) :
    ∀ (toks : List CTok) (acc : Option InlineRes),
    ((toks.foldl (impStep fs p (inlineFuel fuel fs)) acc).map
        InlineRes.seen) =
    (toks.filterMap fun t =>
        match t with
        | CTok.imp q => some (resolveImport p q)
        | CTok.chr _ => none).foldl
      (fun acc q =>
        match acc with
        | none => none
        | some sn =>
          if lookupFS fs q = none then some sn
          else dfsFuel fuel fs q sn)
      (acc.map InlineRes.seen) := by
  intro toks
  induction toks with
  | nil => intro acc; rfl
  | cons t ts ih =>
    intro acc
    cases t with
    | chr c =>
      simp only [List.foldl_cons, List.filterMap_cons]
      rw [ih]
      cases acc with
      | none => rfl
      | some r => rfl
    | imp q =>
      simp only [List.foldl_cons, List.filterMap_cons, List.foldl_cons]
      rw [ih]
      cases acc with
      | none => rfl
      | some r =>
        simp only [impStep, Option.map_some']
        by_cases hl : lookupFS fs (resolveImport p q) = none
        · rw [if_pos hl, if_pos hl]
          rfl
        · rw [if_neg hl, if_neg hl]
          rw [← hIH (resolveImport p q) r.seen]
          cases h2 : inlineFuel fuel fs (resolveImport p q) r.seen with
          | none => rfl
          | some r2 => rfl

theorem inline_eq_dfs : ∀ (fuel : Nat) (fs : FS) (p : List Char)
    (seen : List (List Char)),
    (inlineFuel fuel fs p seen).map InlineRes.seen =
      dfsFuel fuel fs p seen := by
  intro fuel
  induction fuel with
  | zero => intro fs p seen; rfl
  | succ n ih =>
    intro fs p seen
    simp only [inlineFuel, dfsFuel]
    cases hs : seen.contains p with
    | true => simp only [hs, if_true]; rfl
    | false =>
      simp only [hs, Bool.false_eq_true, if_false]
      rw [foldl_seen fs p n (fun q sn => ih fs q sn)]
      rfl

end Build

namespace Build

/-- A diamond import graph: `/a.css` imports `/b.css` then `/c.css`, and
both of those import `/d.css`. -/
def diaFS : FS :=
  [("/a.css".toList, "x@import \"b.css\";@import \"c.css\";y".toList),
   ("/b.css".toList, "@import \"d.css\";b".toList),
   ("/c.css".toList, "@import \"d.css\";c".toList),
   ("/d.css".toList, "d".toList)]

/-- **C3**.  The bundler's visit order is exactly the depth-first
encounter order of the import graph with a seen-set, as the spec
describes: for every in-memory file system and entry path the list of
files the inliner marks as seen, in the order it first reaches them,
equals the order of a standard depth-first traversal over the
resolved import graph.  On the diamond graph (`/d.css` reachable both through
`/b.css` and through `/c.css`) the bundle contains each file's own text
exactly once — `x`, then `d` (inlined at its first, depth-first
encounter inside `/b.css`), `b`, `c` (with the second reference to
`/d.css` contributing nothing), `y` — with no warnings, and the
encounter order is `/a.css`, `/b.css`, `/d.css`, `/c.css`. -/
theorem C3_dfs_encounter_order :
    (∀ (fs : FS) (entry : List Char),
        visitedOf fs entry = specDFSOrder fs entry) ∧
    inlineCSSRun diaFS "/a.css".toList =
      some ⟨"xdbcy".toList,
        ["/c.css".toList, "/d.css".toList, "/b.css".toList, "/a.css".toList],
        []⟩ ∧
    visitedOf diaFS "/a.css".toList =
      ["/a.css".toList, "/b.css".toList, "/d.css".toList, "/c.css".toList] := by
  refine ⟨?_, by decide, by decide⟩
  intro fs entry
  unfold visitedOf specDFSOrder inlineCSSRun
  rw [inline_eq_dfs]

end Build

namespace Build

theorem foldl_impStep_none (fs : FS) (p : List Char)
    (inline : List Char → List (List Char) → Option InlineRes) :
    ∀ toks : List CTok,
      toks.foldl (impStep fs p inline) none = none := by
  intro toks
  induction toks with
  | nil => rfl
  | cons t ts ih => simpa [impStep] using ih

theorem fold_seen_ext (fs : FS) (p : List Char) (fuel : Nat)
    (hrec : ∀ q sn r, inlineFuel fuel fs q sn = some r →
        sn <:+ r.seen ∧ (sn.Nodup → r.seen.Nodup)) :
    ∀ (toks : List CTok) (r0 r : InlineRes),
      toks.foldl (impStep fs p (inlineFuel fuel fs)) (some r0) = some r →
      r0.seen <:+ r.seen ∧ (r0.seen.Nodup → r.seen.Nodup) := by
  intro toks
  induction toks with
  | nil =>
    intro r0 r h
    simp only [List.foldl_nil, Option.some.injEq] at h
    subst h
    exact ⟨List.suffix_refl _, id⟩
  | cons t ts ih =>
    intro r0 r h
    simp only [List.foldl_cons] at h
    cases t with
    | chr c =>
      simp only [impStep] at h
      exact ih ⟨r0.out ++ [c], r0.seen, r0.warns⟩ r h
    | imp q =>
      simp only [impStep] at h
      by_cases hl : lookupFS fs (resolveImport p q) = none
      · rw [if_pos hl] at h
        exact ih ⟨r0.out, r0.seen, r0.warns ++ [resolveImport p q]⟩ r h
      · rw [if_neg hl] at h
        cases h2 : inlineFuel fuel fs (resolveImport p q) r0.seen with
        | none =>
          rw [h2] at h
          rw [foldl_impStep_none] at h
          exact absurd h (by simp)
        | some r2 =>
          rw [h2] at h
          have h3 := hrec _ _ _ h2
          have h4 := ih ⟨r0.out ++ r2.out, r2.seen, r0.warns ++ r2.warns⟩ r h
          exact ⟨h3.1.trans h4.1, fun hn => h4.2 (h3.2 hn)⟩

theorem inline_seen_ext : ∀ (fuel : Nat) (fs : FS) (p : List Char)
    (seen : List (List Char)) (r : InlineRes),
    inlineFuel fuel fs p seen = some r →
    seen <:+ r.seen ∧ (seen.Nodup → r.seen.Nodup) := by
  intro fuel
  induction fuel with
  | zero => intro fs p seen r h; simp [inlineFuel] at h
  | succ n ih =>
    intro fs p seen r h
    simp only [inlineFuel] at h
    cases hs : seen.contains p with
    | true =>
      simp only [hs, if_true] at h
      simp only [Option.some.injEq] at h
      subst h
      exact ⟨List.suffix_refl _, id⟩
    | false =>
      simp only [hs, Bool.false_eq_true, if_false] at h
      have h2 := fold_seen_ext fs p n (fun q sn r' h' => ih fs q sn r' h')
        _ ⟨[], p :: seen, []⟩ r h
      refine ⟨List.IsSuffix.trans ⟨[p], rfl⟩ h2.1, fun hn => h2.2 ?_⟩
      have hps : p ∉ seen := by
        intro hmem
        have : seen.contains p = true := by
          simpa using List.elem_eq_true_of_mem hmem
        rw [this] at hs
        exact absurd hs (by simp)
      exact List.nodup_cons.mpr ⟨hps, hn⟩

end Build

namespace Build

theorem length_filter_mono {α : Type} :
    ∀ (l : List α) (P Q : α → Bool), (∀ x, P x = true → Q x = true) →
    (l.filter P).length ≤ (l.filter Q).length := by
  intro l P Q hPQ
  induction l with
  | nil => exact Nat.le_refl _
  | cons a t ih =>
    simp only [List.filter_cons]
    cases hP : P a with
    | true =>
      rw [hPQ a hP]
      simpa using ih
    | false =>
      cases hQ : Q a with
      | true => simpa using Nat.le_trans ih (Nat.le_succ _)
      | false => simpa using ih

theorem filter_strict {α : Type} [DecidableEq α] (e : α) :
    ∀ (l : List α) (P Q : α → Bool), (∀ x, P x = true → Q x = true) →
    e ∈ l → P e = false → Q e = true →
    (l.filter P).length + 1 ≤ (l.filter Q).length := by
  intro l P Q hPQ hmem hP hQ
  induction l with
  | nil => simp at hmem
  | cons a t ih =>
    simp only [List.filter_cons]
    by_cases ha : a = e
    · subst ha
      rw [hP, hQ]
      simpa using length_filter_mono t P Q hPQ
    · have hmem' : e ∈ t := by
        rcases List.mem_cons.mp hmem with h1 | h1
        · exact absurd h1.symm ha
        · exact h1
      cases hPa : P a with
      | true =>
        rw [hPQ a hPa]
        simpa using ih hmem'
      | false =>
        cases hQa : Q a with
        | true => simpa using Nat.le_trans (ih hmem') (Nat.le_succ _)
        | false => simpa using ih hmem'

theorem freshCount_le (fs : FS) (s1 s2 : List (List Char))
    (h : ∀ x, x ∈ s1 → x ∈ s2) :
    freshCount fs s2 ≤ freshCount fs s1 := by
  unfold freshCount
  apply length_filter_mono
  intro x hx
  simp only [Bool.not_eq_true'] at hx ⊢
  cases h2 : s1.contains x with
  | false => rfl
  | true =>
    exfalso
    have hm : x ∈ s1 := by simpa using h2
    have : s2.contains x = true := by simpa using List.elem_eq_true_of_mem (h x hm)
    rw [this] at hx
    exact absurd hx (by simp)

theorem freshCount_cons_lt (fs : FS) (p : List Char)
    (seen : List (List Char)) (hp : p ∈ fsPaths fs)
    (hs : seen.contains p = false) :
    freshCount fs (p :: seen) < freshCount fs seen := by
  unfold freshCount
  exact filter_strict p (fsPaths fs) _ _
    (fun x hx => by
      simp only [Bool.not_eq_true'] at hx ⊢
      simp only [List.contains_cons, Bool.or_eq_false_iff] at hx
      exact hx.2)
    hp (by simp) (by simp only [Bool.not_eq_true']; exact hs)

theorem lookupFS_mem : ∀ (fs : FS) (p : List Char),
    lookupFS fs p ≠ none → p ∈ fsPaths fs := by
  intro fs p h
  have hm : p ∈ fs.map Prod.fst := by
    induction fs with
    | nil => simp [lookupFS] at h
    | cons kv t ih =>
      obtain ⟨k, v⟩ := kv
      simp only [lookupFS] at h
      by_cases hk : k = p
      · simp [hk]
      · rw [if_neg hk] at h
        simpa using Or.inr (ih h)
  unfold fsPaths
  exact List.mem_dedup.mpr hm

theorem fold_isSome (fs : FS) (p : List Char) (n : Nat)
    (hrecS : ∀ q sn, freshCount fs sn < n →
      (inlineFuel n fs q sn).isSome = true) :
    ∀ (toks : List CTok) (r0 : InlineRes), freshCount fs r0.seen < n →
      ∃ r, toks.foldl (impStep fs p (inlineFuel n fs)) (some r0) = some r ∧
        freshCount fs r.seen < n := by
  intro toks
  induction toks with
  | nil => intro r0 h; exact ⟨r0, rfl, h⟩
  | cons t ts ih =>
    intro r0 h
    simp only [List.foldl_cons]
    cases t with
    | chr c =>
      simp only [impStep]
      exact ih ⟨r0.out ++ [c], r0.seen, r0.warns⟩ h
    | imp q =>
      simp only [impStep]
      by_cases hl : lookupFS fs (resolveImport p q) = none
      · rw [if_pos hl]
        exact ih ⟨r0.out, r0.seen, r0.warns ++ [resolveImport p q]⟩ h
      · rw [if_neg hl]
        have hS := hrecS (resolveImport p q) r0.seen h
        cases h2 : inlineFuel n fs (resolveImport p q) r0.seen with
        | none => rw [h2] at hS; simp at hS
        | some r2 =>
          have hsub := (inline_seen_ext n fs _ _ _ h2).1
          have hle : freshCount fs r2.seen ≤ freshCount fs r0.seen :=
            freshCount_le fs _ _ (fun x hx => hsub.subset hx)
          exact ih ⟨r0.out ++ r2.out, r2.seen, r0.warns ++ r2.warns⟩
            (Nat.lt_of_le_of_lt hle h)

theorem inline_isSome : ∀ (fuel : Nat) (fs : FS) (p : List Char)
    (seen : List (List Char)),
    freshCount fs seen < fuel → (inlineFuel fuel fs p seen).isSome = true := by
  intro fuel
  induction fuel with
  | zero => intro fs p seen h; exact absurd h (Nat.not_lt_zero _)
  | succ n ih =>
    intro fs p seen h
    simp only [inlineFuel]
    cases hs : seen.contains p with
    | true => simp
    | false =>
      simp only [Bool.false_eq_true, if_false]
      by_cases hl : lookupFS fs p = none
      · rw [hl]
        simp [tokenizeCSS, tokenizeFuel]
      · have hp : p ∈ fsPaths fs := lookupFS_mem fs p hl
        have hfresh : freshCount fs (p :: seen) < n := by
          have h1 := freshCount_cons_lt fs p seen hp hs
          omega
        obtain ⟨r, hr, _⟩ := fold_isSome fs p n (fun q sn hq => ih fs q sn hq)
          (tokenizeCSS ((lookupFS fs p).getD [])) ⟨[], p :: seen, []⟩ hfresh
        rw [hr]
        rfl

end Build

namespace Build

/-- A cyclic import graph: `/a.css` imports `/b.css`, which imports
`/a.css` back. -/
def cycFS : FS :=
  [("/a.css".toList, "@import \"b.css\";A".toList),
   ("/b.css".toList, "@import \"a.css\";B".toList)]

/-- **C4**.  The recursive inlining terminates on every import graph,
cyclic ones included: with the fuel bound `fuelOf` — one more than the
number of distinct files, which models the depth the JavaScript recursion
can actually reach — the run always produces a result (first conjunct:
the recursion never exhausts its fuel, because each recursive call is
made on a strictly smaller set of unseen files).  An import of an
already-seen file returns empty content, no warning, and an unchanged
seen set rather than recursing (second conjunct), the visit list never
records a file twice, so each distinct file is inlined at most once
(third conjunct), and on the two-file cycle A ↔ B the bundler terminates
with output `BA` — B's body inlined once inside A, the back-import of A
contributing nothing — and no warnings (fourth conjunct). -/
theorem C4_cycle_termination :
    (∀ (fs : FS) (entry : List Char), (inlineCSSRun fs entry).isSome = true) ∧
    (∀ (fuel : Nat) (fs : FS) (p : List Char) (seen : List (List Char)),
        seen.contains p = true →
        inlineFuel (fuel + 1) fs p seen = some ⟨[], seen, []⟩) ∧
    (∀ (fs : FS) (entry : List Char) (r : InlineRes),
        inlineCSSRun fs entry = some r → r.seen.Nodup) ∧
    inlineCSSRun cycFS "/a.css".toList =
      some ⟨"BA".toList, ["/b.css".toList, "/a.css".toList], []⟩ := by
  refine ⟨?_, ?_, ?_, by decide⟩
  · intro fs entry
    apply inline_isSome
    unfold fuelOf freshCount
    have h := List.length_filter_le
      (fun q => !(([] : List (List Char)).contains q)) (fsPaths fs)
    omega
  · intro fuel fs p seen hs
    simp only [inlineFuel]
    rw [if_pos hs]
  · intro fs entry r h
    exact (inline_seen_ext (fuelOf fs) fs entry [] r h).2 List.nodup_nil

/-- **C4** witness: the second and third conjuncts applied at concrete
inputs — inlining `/a.css` when it is already in the seen set yields
empty content with the seen set unchanged, and the seen list of the
cyclic run has no duplicates. -/
theorem C4_witness :
    inlineFuel 3 cycFS "/a.css".toList ["/a.css".toList] =
      some ⟨[], ["/a.css".toList], []⟩ ∧
    (["/b.css".toList, "/a.css".toList] : List (List Char)).Nodup :=
  ⟨C4_cycle_termination.2.1 2 cycFS "/a.css".toList ["/a.css".toList]
      (by decide),
   C4_cycle_termination.2.2.1 cycFS "/a.css".toList
      ⟨"BA".toList, ["/b.css".toList, "/a.css".toList], []⟩ (by decide)⟩

end Build

namespace Build

/-- The exact text of a well-formed double-quoted `@import` statement. -/
def impStmt (q : List Char) : List Char :=
  '@' :: 'i' :: 'm' :: 'p' :: 'o' :: 'r' :: 't' :: ' ' :: '"' ::
    (q ++ ['"', ';'])

theorem findCap_capture (t₂ : List Char) :
    ∀ (q acc : List Char),
    (∀ c ∈ q, isQuote c = false ∧ lineTerm c = false) →
    (acc.isEmpty = false ∨ q ≠ []) →
    findCap acc (q ++ '"' :: ';' :: t₂) = some (acc.reverse ++ q, t₂) := by
  intro q
  induction q with
  | nil =>
    intro acc hq hne
    have hacc : acc.isEmpty = false := by
      rcases hne with h | h
      · exact h
      · exact absurd rfl h
    simp only [List.nil_append, findCap, hacc]
    simp [isQuote]
  | cons c q' ih =>
    intro acc hq hne
    have hc := hq c (List.mem_cons_self c q')
    simp only [List.cons_append, findCap]
    rw [if_neg (by simp [hc.1])]
    rw [if_neg (by simp [hc.2])]
    have h2 := ih (c :: acc) (fun d hd => hq d (List.mem_cons_of_mem c hd))
      (Or.inl rfl)
    rw [show (List.append q' ('"' :: ';' :: t₂)) = q' ++ '"' :: ';' :: t₂
      from rfl] at *
    rw [h2]
    simp

theorem matchImport_stmt (q t₂ : List Char)
    (hq : ∀ c ∈ q, isQuote c = false ∧ lineTerm c = false) (hne : q ≠ []) :
    matchImport (impStmt q ++ t₂) = some (q, t₂) := by
  have hl : impStmt q ++ t₂ =
      '@' :: 'i' :: 'm' :: 'p' :: 'o' :: 'r' :: 't' :: ' ' :: '"' ::
        (q ++ '"' :: ';' :: t₂) := by
    simp [impStmt]
  rw [hl]
  have hstep : matchImport
      ('@' :: 'i' :: 'm' :: 'p' :: 'o' :: 'r' :: 't' :: ' ' :: '"' ::
        (q ++ '"' :: ';' :: t₂)) = findCap [] (q ++ '"' :: ';' :: t₂) := rfl
  rw [hstep]
  rw [findCap_capture t₂ q [] hq (Or.inr hne)]
  simp

theorem matchImport_not_at (c : Char) (l : List Char) (hc : c ≠ '@') :
    matchImport (c :: l) = none := by
  unfold matchImport
  rw [if_neg ?h]
  case h =>
    simp only [importWord, List.isPrefixOf, Bool.and_eq_true, beq_iff_eq]
    intro hp
    exact hc hp.1.symm

theorem tokenizeFuel_chrs : ∀ (fuel : Nat) (t : List Char),
    t.length ≤ fuel → (∀ c ∈ t, c ≠ '@') →
    tokenizeFuel fuel t = t.map CTok.chr := by
  intro fuel
  induction fuel with
  | zero =>
    intro t hlen _
    cases t with
    | nil => rfl
    | cons c rest => simp at hlen
  | succ n ih =>
    intro t hlen ht
    cases t with
    | nil => rfl
    | cons c rest =>
      simp only [tokenizeFuel]
      rw [matchImport_not_at c rest (ht c (List.mem_cons_self c rest))]
      dsimp only
      rw [ih rest (by simp at hlen; omega)
        (fun d hd => ht d (List.mem_cons_of_mem c hd))]
      rfl

theorem tokenizeFuel_decomp :
    ∀ (t₁ : List Char) (fuel : Nat) (q t₂ : List Char),
    (t₁ ++ impStmt q ++ t₂).length ≤ fuel →
    (∀ c ∈ t₁, c ≠ '@') → (∀ c ∈ t₂, c ≠ '@') →
    (∀ c ∈ q, isQuote c = false ∧ lineTerm c = false) → q ≠ [] →
    tokenizeFuel fuel (t₁ ++ impStmt q ++ t₂) =
      t₁.map CTok.chr ++ CTok.imp q :: t₂.map CTok.chr := by
  intro t₁
  induction t₁ with
  | nil =>
    intro fuel q t₂ hlen _ ht₂ hq hne
    cases fuel with
    | zero => simp [impStmt] at hlen
    | succ n =>
      have hl2 : t₂.length ≤ n := by
        simp [impStmt] at hlen
        omega
      have hstmt : (([] : List Char) ++ impStmt q ++ t₂) =
          '@' :: ('i' :: 'm' :: 'p' :: 'o' :: 'r' :: 't' :: ' ' :: '"' ::
            (q ++ '"' :: ';' :: t₂)) := by
        simp [impStmt]
      rw [hstmt]
      simp only [tokenizeFuel]
      have hm : matchImport
          ('@' :: ('i' :: 'm' :: 'p' :: 'o' :: 'r' :: 't' :: ' ' :: '"' ::
            (q ++ '"' :: ';' :: t₂))) = some (q, t₂) := by
        have h0 := matchImport_stmt q t₂ hq hne
        rw [show impStmt q ++ t₂ =
            '@' :: ('i' :: 'm' :: 'p' :: 'o' :: 'r' :: 't' :: ' ' :: '"' ::
              (q ++ '"' :: ';' :: t₂)) from by simp [impStmt]] at h0
        exact h0
      rw [hm]
      dsimp only
      rw [tokenizeFuel_chrs n t₂ hl2 ht₂]
      rfl
  | cons c t₁' ih =>
    intro fuel q t₂ hlen ht₁ ht₂ hq hne
    cases fuel with
    | zero => simp at hlen
    | succ n =>
      have hsplit : ((c :: t₁') ++ impStmt q ++ t₂) =
          c :: (t₁' ++ impStmt q ++ t₂) := by simp
      rw [hsplit]
      simp only [tokenizeFuel]
      rw [matchImport_not_at c _ (ht₁ c (List.mem_cons_self c t₁'))]
      dsimp only
      rw [ih n q t₂ (by simp at hlen ⊢; omega)
        (fun d hd => ht₁ d (List.mem_cons_of_mem c hd)) ht₂ hq hne]
      rfl

end Build

namespace Build

theorem foldl_chr (fs : FS) (p : List Char)
    (inline : List Char → List (List Char) → Option InlineRes) :
    ∀ (t : List Char) (r : InlineRes),
    (t.map CTok.chr).foldl (impStep fs p inline) (some r) =
      some ⟨r.out ++ t, r.seen, r.warns⟩ := by
  intro t
  induction t with
  | nil => intro r; simp
  | cons c t' ih =>
    intro r
    simp only [List.map_cons, List.foldl_cons, impStep]
    rw [ih ⟨r.out ++ [c], r.seen, r.warns⟩]
    simp

theorem inline_missing_import (fs : FS) (p t₁ q t₂ : List Char) (fuel : Nat)
    (hcontent : lookupFS fs p = some (t₁ ++ impStmt q ++ t₂))
    (ht₁ : ∀ c ∈ t₁, c ≠ '@') (ht₂ : ∀ c ∈ t₂, c ≠ '@')
    (hq : ∀ c ∈ q, isQuote c = false ∧ lineTerm c = false) (hne : q ≠ [])
    (hmiss : lookupFS fs (resolveImport p q) = none) :
    inlineFuel (fuel + 1) fs p [] =
      some ⟨t₁ ++ t₂, [p], [resolveImport p q]⟩ := by
  simp only [inlineFuel]
  rw [if_neg (by simp)]
  rw [hcontent]
  simp only [Option.getD_some]
  unfold tokenizeCSS
  rw [tokenizeFuel_decomp t₁ _ q t₂ (Nat.le_refl _) ht₁ ht₂ hq hne]
  rw [List.foldl_append]
  rw [foldl_chr fs p _ t₁ ⟨[], [p], []⟩]
  simp only [List.foldl_cons, impStep]
  rw [if_pos hmiss]
  rw [foldl_chr fs p _ t₂ ⟨[] ++ t₁, [p], [] ++ [resolveImport p q]⟩]
  simp

/-- A file system whose only file `/a.css` imports the missing
`/b.css`. -/
def missFS : FS := [("/a.css".toList, "x@import \"b.css\";y".toList)]

/-- **C9**.  When an `@import` statement's resolved target does not exist
in the file system, the inliner emits exactly one warning naming the
resolved path, substitutes empty content in place of the import
statement, and continues: for every file system, file whose content is
`t₁ ++ @import "q"; ++ t₂` (with `t₁`, `t₂` free of `@` and `q` a
well-formed quote-free path) and missing resolved target, the result is
`t₁ ++ t₂` — the rest of the bundle unaffected — with the single warning,
at every recursion budget.  Concretely, bundling `/a.css` whose body is
`x@import "b.css";y` with `/b.css` absent yields `xy` and the one
warning `/b.css`. -/
theorem C9_missing_import_warning :
    (∀ (fs : FS) (p t₁ q t₂ : List Char) (fuel : Nat),
        lookupFS fs p = some (t₁ ++ impStmt q ++ t₂) →
        (∀ c ∈ t₁, c ≠ '@') → (∀ c ∈ t₂, c ≠ '@') →
        (∀ c ∈ q, isQuote c = false ∧ lineTerm c = false) → q ≠ [] →
        lookupFS fs (resolveImport p q) = none →
        inlineFuel (fuel + 1) fs p [] =
          some ⟨t₁ ++ t₂, [p], [resolveImport p q]⟩) ∧
    inlineCSSRun missFS "/a.css".toList =
      some ⟨"xy".toList, ["/a.css".toList], ["/b.css".toList]⟩ :=
  ⟨fun fs p t₁ q t₂ fuel h1 h2 h3 h4 h5 h6 =>
    inline_missing_import fs p t₁ q t₂ fuel h1 h2 h3 h4 h5 h6, by decide⟩

/-- **C9** witness: the general conjunct applied to `missFS` with
`t₁ = x`, `q = b.css`, `t₂ = y` at recursion budget 1. -/
theorem C9_witness :
    inlineFuel 1 missFS "/a.css".toList [] =
      some ⟨"xy".toList, ["/a.css".toList], ["/b.css".toList]⟩ :=
  (C9_missing_import_warning.1 missFS "/a.css".toList
    "x".toList "b.css".toList "y".toList 0
    (by decide) (by decide) (by decide) (by decide) (by decide)
    (by decide)).trans (by decide)

end Build

namespace Build

/-- **C8** (amended).  The hash step is deterministic and depends
exactly on the minified bytes: any two runs of the bundle step on the
same file system and entry produce the same minified content and the
same hashed filename (first conjunct); the filename is a function of
the minified CSS, so equal minified bytes give equal filenames (second
conjunct); and the hash genuinely separates contents — the one-byte
minified contents `x` and `y` get different 8-character hashes and
different `bundle.<hash>.css` names (third and fourth conjuncts).  The
original claim's universal direction — *every* one-byte change of the
raw input changes the filename — is false, because minification is
applied before hashing and can erase the changed byte: see the
counterexample. -/
theorem C8_hash_amended :
    (∀ (fs : FS) (entry m₁ f₁ m₂ f₂ : List Char),
        compileCSSBundle fs entry = some (m₁, f₁) →
        compileCSSBundle fs entry = some (m₂, f₂) →
        m₁ = m₂ ∧ f₁ = f₂) ∧
    (∀ a b : List Char, minifyCSS a = minifyCSS b →
        bundleFileName (minifyCSS a) = bundleFileName (minifyCSS b)) ∧
    getContentHash "x".toList ≠ getContentHash "y".toList ∧
    bundleFileName "x".toList ≠ bundleFileName "y".toList := by
  refine ⟨?_, ?_, by decide, by decide⟩
  · intro fs entry m₁ f₁ m₂ f₂ h1 h2
    rw [h1] at h2
    simp only [Option.some.injEq, Prod.mk.injEq] at h2
    exact ⟨h2.1, h2.2⟩
  · intro a b h
    rw [h]

/-- **C8** counterexample: `/*a*/x` and `/*b*/x` differ in exactly one
byte, yet minification strips the comment from both, so the minified
bytes, the hash, and the output filename `bundle.<hash>.css` coincide —
changing one byte of the CSS input does not always change the hash
filename. -/
theorem C8_counterexample :
    "/*a*/x".toList ≠ "/*b*/x".toList ∧
    minifyCSS "/*a*/x".toList = minifyCSS "/*b*/x".toList ∧
    bundleFileName (minifyCSS "/*a*/x".toList) =
      bundleFileName (minifyCSS "/*b*/x".toList) := by
  refine ⟨by decide, by decide, ?_⟩
  decide

/-- **C8** witness: the determinism conjuncts applied at concrete
inputs — the empty file system bundles to the empty minified content
with the MD5-of-empty hash name, twice over, and equal minified inputs
give the equal filename. -/
theorem C8_witness :
    (minifyCSS [] = [] ∧
      List.take 4 (bundleFileName []) = "bund".toList) ∧
    bundleFileName (minifyCSS "h1".toList) =
      bundleFileName (minifyCSS "h1".toList) :=
  ⟨⟨(C8_hash_amended.1 [] [] (minifyCSS []) (bundleFileName [])
        [] ("bundle.d41d8cd9.css".toList) rfl (by decide)).1,
    by decide⟩,
   C8_hash_amended.2.1 "h1".toList "h1".toList rfl⟩

end Build
